import Mathlib

/-!
Shallow embedding of the pysem recursive neural-network code
(`pysem/networks.py` and `pysem/lstm.py`).

Conventions of the embedding:
* numpy arrays of shape `(d, 1)` become `Vec d := Fin d → ℝ`;
  arrays of shape `(d, e)` become `Mat d e := Matrix (Fin d) (Fin e) ℝ`.
* The spacy / nltk tokenizers are external collaborators: tree models take a
  parsed dependency tree (`DepTree`) as input, chain models take a tokenized
  batch (`List (List String)`), exactly the data the parser hands the code.
* Python dicts keyed by strings become total functions `String → _` when they
  are `defaultdict`s (lookup never fails, missing keys read the default),
  and `String → Option _` when they are plain dicts (lookup can fail:
  `none` models a `KeyError`).
* The unbounded `compute_embeddings` / `compute_gradients` recursions
  ("repeat full passes until every node is computed") are embedded with an
  explicit fuel argument: one unit of fuel is one full pass over the node
  list followed by the source's "all computed?" early-exit test.
-/

namespace Pysem

open Matrix

/-- Column vectors of dimension `d` (numpy arrays of shape `(d, 1)`). -/
abbrev Vec (d : ℕ) := Fin d → ℝ

/-- Real matrices of shape `d × e`. -/
abbrev Mat (d e : ℕ) := Matrix (Fin d) (Fin e) ℝ

/-- `RecursiveModel.sigmoid`: `1.0 / (1 + np.exp(-x))`, elementwise. -/
noncomputable def sigmoid (x : ℝ) : ℝ := 1 / (1 + Real.exp (-x))

/-- `RecursiveModel.sigmoid_grad`: `x * (1 - x)` (argument is the activated output). -/
def sigmoidGrad (x : ℝ) : ℝ := x * (1 - x)

/-- `RecursiveModel.tanh_grad`: `1.0 - x * x` (argument is the activated output). -/
def tanhGrad (x : ℝ) : ℝ := 1 - x * x

/-- Elementwise `np.tanh` on a column vector. -/
noncomputable def tanhV {d : ℕ} (v : Vec d) : Vec d := fun i => Real.tanh (v i)

/-- Elementwise `tanh_grad` on a column vector. -/
def tanhGradV {d : ℕ} (v : Vec d) : Vec d := fun i => tanhGrad (v i)

/-- `np.linalg.norm` of a column vector (Frobenius / L2 norm). -/
noncomputable def l2norm {d : ℕ} (v : Vec d) : ℝ := Real.sqrt (∑ i, v i ^ 2)

/-- `np.linalg.norm` of a matrix (Frobenius norm, which numpy uses by default). -/
noncomputable def l2normM {d e : ℕ} (m : Mat d e) : ℝ :=
  Real.sqrt (∑ i, ∑ j, m i j ^ 2)

/-- `np.outer(a, b)`: the matrix with entries `a i * b j`. -/
def outerProd {d e : ℕ} (a : Vec d) (b : Vec e) : Mat d e :=
  Matrix.vecMulVec a b

/-- Elementwise (Hadamard) product of two column vectors (numpy `*`). -/
def hadamard {d : ℕ} (a b : Vec d) : Vec d := fun i => a i * b i

/-!
## The repeated-full-pass traversal engine

`DependencyNetwork.compute_embeddings`, `TreeLSTM.compute_embeddings`,
`DependencyNetwork.compute_gradients` and `HolographicNetwork.compute_gradients`
all share the same control structure:

```
for node in self.tree:
    if <node not computed and node ready>:
        <touch the state and mark node computed>
if all(node.computed for node in self.tree):
    return
else:
    <recurse>
```

We embed this once, parameterized by a readiness test `ready` on the computed
flags (forward: "all children computed"; backward: "parent computed") and a
state-touching function `touch` (the body that computes the node's data).
-/

/-- The mutable traversal state: per-model data `σ` plus the per-node
`computed` flags. -/
structure PassState (n : ℕ) (σ : Type) where
  data : σ
  computed : Fin n → Bool

variable {n : ℕ} {σ : Type}

/-- One loop iteration of the traversal: skip a node that is computed or not
ready, otherwise touch the data and flag the node computed. -/
def passStep (ready : (Fin n → Bool) → Fin n → Bool) (touch : Fin n → σ → σ)
    (st : PassState n σ) (i : Fin n) : PassState n σ :=
  if st.computed i then st
  else if ready st.computed i then
    { data := touch i st.data, computed := Function.update st.computed i true }
  else st

/-- One full `for node in self.tree:` pass over the node list, in tree order. -/
def fullPass (ready : (Fin n → Bool) → Fin n → Bool) (touch : Fin n → σ → σ)
    (st : PassState n σ) : PassState n σ :=
  (List.finRange n).foldl (passStep ready touch) st

/-- The recursion `compute_…` : do a full pass, return if every node is
computed, otherwise recurse.  `fuel` bounds the number of full passes. -/
def runPasses (ready : (Fin n → Bool) → Fin n → Bool) (touch : Fin n → σ → σ) :
    ℕ → PassState n σ → PassState n σ
  | 0, st => st
  | fuel + 1, st =>
    if (List.finRange n).all (fullPass ready touch st).computed then fullPass ready touch st
    else runPasses ready touch fuel (fullPass ready touch st)


/-!
## Dependency trees

A parsed sentence, as the tree models receive it from the external parser
(`TokenWrapper` interface): every token has a stable index (its position),
a head index (`head.idx`; the root points to itself), a dependency label
(`dep_`), and surface forms (`text`, `lower_`).  The parser's child lists are
the inverse of the head relation on a well-formed parse, which is how we
recover `get_children`.
-/

structure DepTree (n : ℕ) where
  head : Fin n → Fin n
  dep : Fin n → String
  text : Fin n → String
  lower : Fin n → String

/-- `get_children(node)`: the nodes (in tree order) whose head is this node,
other than the node itself. -/
def DepTree.children {n : ℕ} (t : DepTree n) (i : Fin n) : List (Fin n) :=
  (List.finRange n).filter fun j => decide (t.head j = i ∧ ¬j = i)

/-- Readiness in the forward traversal: all of the node's children computed. -/
def childrenReady {n : ℕ} (t : DepTree n) : (Fin n → Bool) → Fin n → Bool :=
  fun c i => (t.children i).all c

/-- Readiness in the backward traversal: the node's parent computed
(`get_parent` returns the node whose index is `node.head.idx`). -/
def parentReady {n : ℕ} (t : DepTree n) : (Fin n → Bool) → Fin n → Bool :=
  fun c i => c (t.head i)


/-!
## DependencyNetwork (networks.py)

Parameters of the tied-tree model: per-dependency weight matrices and bias
vectors (`defaultdict`s, hence total functions with every label readable),
the structural matrix `wm`, and the word-embedding table `vectors` (a plain
dict: lookup can fail with `KeyError`, modelled by `Option`).
-/

namespace DependencyNetwork

variable {n d : ℕ}

/-- `clip_gradient(node, clipval)` (networks.py:358): rescale a gradient
whose norm exceeds `clipval` to have norm exactly `clipval`. -/
noncomputable def clip_gradient (g : Vec d) (clipval : ℝ) : Vec d :=
  if l2norm g > clipval then (clipval / l2norm g) • g else g

/-- `embed_node(node, children)` (networks.py:409): the embedding of a node
is `tanh` of (`wm @ vectors[text]`, or zeros on `KeyError`) plus, for each
child, `weights[child.dep_] @ child.embedding + biases[child.dep_]`. -/
noncomputable def embed_node (wm : Mat d d) (weights : String → Mat d d)
    (biases : String → Vec d) (vectors : String → Option (Vec d))
    (t : DepTree n) (i : Fin n) (emb : Fin n → Vec d) : Vec d :=
  let base : Vec d :=
    match vectors (t.text i) with
    | some v => wm.mulVec v
    | none => 0
  tanhV ((t.children i).foldl
    (fun acc c => acc + (weights (t.dep c)).mulVec (emb c) + biases (t.dep c)) base)

/-- The per-node state update of the forward traversal. -/
noncomputable def fwdTouch (wm : Mat d d) (weights : String → Mat d d)
    (biases : String → Vec d) (vectors : String → Option (Vec d))
    (t : DepTree n) (i : Fin n) (emb : Fin n → Vec d) : Fin n → Vec d :=
  Function.update emb i (embed_node wm weights biases vectors t i emb)

/-- `compute_embeddings` (networks.py:391): repeat full passes until every
node is computed; `fuel` bounds the number of passes of the unbounded
source recursion. -/
noncomputable def compute_embeddings (wm : Mat d d) (weights : String → Mat d d)
    (biases : String → Vec d) (vectors : String → Option (Vec d))
    (t : DepTree n) (fuel : ℕ) (st : PassState n (Fin n → Vec d)) :
    PassState n (Fin n → Vec d) :=
  runPasses (childrenReady t) (fwdTouch wm weights biases vectors t) fuel st

/-- The state at tree construction: no node computed, no embedding assigned
(we represent the absent `embedding` attribute by the zero vector). -/
def initFwdState (n d : ℕ) : PassState n (Fin n → Vec d) :=
  { data := fun _ => 0, computed := fun _ => false }

/-- `forward_pass(sentence)` (networks.py:445): build the tree (done by the
external parser, so the tree is this function's input), compute all
embeddings, then `reset_comp_graph`.  A well-formed `n`-node tree needs at
most `n` full passes, so the embedding runs the fueled recursion with
fuel `n`. -/
noncomputable def forward_pass (wm : Mat d d) (weights : String → Mat d d)
    (biases : String → Vec d) (vectors : String → Option (Vec d))
    (t : DepTree n) : PassState n (Fin n → Vec d) :=
  let st := compute_embeddings wm weights biases vectors t n (initFwdState n d)
  { data := st.data, computed := fun _ => false }

/-- `get_root_embedding` (networks.py:485): the embedding of the first node
that is its own head, `None` if there is no such node. -/
def get_root_embedding (t : DepTree n) (emb : Fin n → Vec d) : Option (Vec d) :=
  ((List.finRange n).find? fun i => decide (t.head i = i)).map emb

end DependencyNetwork


/-!
## The §8 concrete scenario

dimension 4, vocabulary {"cat", "sat"}, a single-edge tree whose root token
is "sat" with one child "cat" labeled `nsubj`; all weight matrices (including
`wm`) the identity, all biases zero, fixed word vectors.
-/

/-- The two-token tree of the concrete scenario: token 0 = "cat", an `nsubj`
child of token 1 = "sat", which is the self-headed root. -/
def c1Tree : DepTree 2 where
  head := fun _ => 1
  dep := fun i => if i = 0 then "nsubj" else "ROOT"
  text := fun i => if i = 0 then "cat" else "sat"
  lower := fun i => if i = 0 then "cat" else "sat"

/-- The embedding table of the concrete scenario: fixed known vectors for
"cat" and "sat". -/
def c1Vectors (vcat vsat : Vec 4) : String → Option (Vec 4) :=
  fun w => if w = "cat" then some vcat else if w = "sat" then some vsat else none


/-!
## Chain models (RecurrentNetwork in networks.py, LSTM in lstm.py)

Both consume a tokenized batch (tokenization is done by the external
parser/`nltk`, so the batch of token lists is the input here), left-pad every
sentence with the `"PAD"` sentinel to the longest length, and process the
whole batch in lock-step over time.  Arrays of shape `(dim, bsize)` become
`Mat d batch.length`; `hs[-1]`/`cell_states[-1]` are handled by the index
shift `H k = hs[k-1]` (so `H 0 = hs[-1] = 0`).
-/

/-- Elementwise tanh on a matrix. -/
noncomputable def tanhM {d e : ℕ} (m : Mat d e) : Mat d e :=
  Matrix.of fun i j => Real.tanh (m i j)

/-- Elementwise sigmoid on a matrix. -/
noncomputable def sigmoidM {d e : ℕ} (m : Mat d e) : Mat d e :=
  Matrix.of fun i j => sigmoid (m i j)

/-- Elementwise `tanh_grad` on a matrix. -/
def tanhGradM {d e : ℕ} (m : Mat d e) : Mat d e :=
  Matrix.of fun i j => tanhGrad (m i j)

/-- Elementwise `sigmoid_grad` on a matrix. -/
def sigmoidGradM {d e : ℕ} (m : Mat d e) : Mat d e :=
  Matrix.of fun i j => sigmoidGrad (m i j)

/-- Elementwise (Hadamard) product of matrices (numpy `*`). -/
def hadamardM {d e : ℕ} (a b : Mat d e) : Mat d e :=
  Matrix.of fun i j => a i j * b i j

/-- numpy broadcast of a `(d,1)` bias over the columns of a `(d,b)` array. -/
def addCol {d e : ℕ} (m : Mat d e) (v : Vec d) : Mat d e :=
  Matrix.of fun i j => m i j + v i

/-- `np.sum(m, axis=1).reshape(dim, 1)`. -/
def rowSum {d e : ℕ} (m : Mat d e) : Vec d := fun i => ∑ j, m i j

/-- Python's `str.lower()` on a token, modelled as lowercasing each
character. -/
def pyLower (s : String) : String := ⟨s.data.map Char.toLower⟩

/-- `max([len(s) for s in batch])` (the source raises on an empty batch; the
fold returns 0 there). -/
def seqlenOf (batch : List (List String)) : ℕ := (batch.map List.length).foldr max 0

/-- Left-pad a token list to length `L` with the `PAD` sentinel
(networks.py:216, lstm.py:82). -/
def padSentence (L : ℕ) (s : List String) : List String :=
  List.replicate (L - s.length) "PAD" ++ s

/-- The token of sentence `idx` at time step `k` after padding. -/
def wordAt (batch : List (List String)) (k : ℕ) (idx : Fin batch.length) : String :=
  (padSentence (seqlenOf batch) (batch.get idx)).getD k "PAD"

/-- The padded batch (every sentence left-padded to the common length). -/
def paddedBatch (batch : List (List String)) : List (List String) :=
  batch.map (padSentence (seqlenOf batch))

namespace RecurrentNetwork

/-- The plain RNN's parameter store: `Whh`, `Why`, biases `bh` and `by`
(named `byv` here because `by` is reserved), and the embedding table. -/
structure Params (d : ℕ) where
  Whh : Mat d d
  Why : Mat d d
  bh : Vec d
  byv : Vec d
  vectors : String → Option (Vec d)

variable {d : ℕ}

/-- `RecurrentNetwork.clip_gradient(gradient, clipval)` (networks.py:176):
a gradient whose norm exceeds `clipval` is rescaled by `(g / norm) * 5` —
the rescale target is the hardcoded constant 5, `clipval` is only the
threshold.  (The source also sets `self.clipflag`, pure bookkeeping.) -/
noncomputable def clip_gradient {e : ℕ} (g : Mat d e) (clipval : ℝ) : Mat d e :=
  if l2normM g > clipval then (5 / l2normM g) • g else g

/-- `to_array(words)` (networks.py:185): one column per sentence; `PAD`
contributes nothing, and a word missing from the table is skipped
(`KeyError`), leaving its column zero. -/
noncomputable def to_array (vectors : String → Option (Vec d)) {b : ℕ}
    (words : Fin b → String) : Mat d b :=
  Matrix.of fun i idx =>
    if words idx = "PAD" then 0
    else
      match vectors (words idx) with
      | some v => v i
      | none => 0

/-- The hidden states of `compute_embeddings` (networks.py:196), with the
index shift `H k = hs[k-1]`:
`hs[i] = tanh(Whh @ hs[i-1] + to_array(words_i) + bh)`. -/
noncomputable def H (P : Params d) (batch : List (List String)) :
    ℕ → Mat d batch.length
  | 0 => 0
  | k + 1 =>
    tanhM (addCol (P.Whh * H P batch k + to_array P.vectors (wordAt batch k)) P.bh)

/-- `self.ys = tanh(Why @ hs[seqlen-1] + by)` (networks.py:207). -/
noncomputable def ysOf (P : Params d) (batch : List (List String)) :
    Mat d batch.length :=
  tanhM (addCol (P.Why * H P batch (seqlenOf batch)) P.byv)

/-- What `forward_pass` (networks.py:210) stores: `bsize = len(batch)`,
`seqlen`, and the output array `ys` of shape `(dim, bsize)`. -/
structure FwdResult (d : ℕ) where
  bsize : ℕ
  seqlen : ℕ
  ys : Mat d bsize

/-- `forward_pass(batch)` (networks.py:210). -/
noncomputable def forward_pass (P : Params d) (batch : List (List String)) :
    FwdResult d :=
  { bsize := batch.length, seqlen := seqlenOf batch, ys := ysOf P batch }

/-- `get_root_embedding` (networks.py:276): returns `self.ys`, an array of
shape `(dim, bsize)`. -/
def get_root_embedding (st : FwdResult d) : Mat d st.bsize := st.ys

/-- `word_set` in `backward_pass` (networks.py:266): the distinct non-PAD
words of the padded batch. -/
def word_set (batch : List (List String)) : List String :=
  ((paddedBatch batch).flatten.dedup).filter fun w => decide (¬w = "PAD")

/-- `all_words` in `backward_pass` (networks.py:267): every non-PAD token
occurrence of the padded batch. -/
def all_words (batch : List (List String)) : List String :=
  (paddedBatch batch).flatten.filter fun w => decide (¬w = "PAD")

end RecurrentNetwork

namespace LSTM

/-- The chain LSTM's parameter store (lstm.py:15). -/
structure Params (d : ℕ) where
  iW : Mat d d
  iU : Mat d d
  fW : Mat d d
  fU : Mat d d
  oW : Mat d d
  oU : Mat d d
  uW : Mat d d
  uU : Mat d d
  yW : Mat d d
  i_bias : Vec d
  f_bias : Vec d
  o_bias : Vec d
  u_bias : Vec d
  y_bias : Vec d
  vectors : String → Option (Vec d)

variable {d : ℕ}

/-- `LSTM.clip_grad(gradient, clipval)` (lstm.py:43): same hardcoded-5
rescale as the plain RNN (flattening does not change the Frobenius norm). -/
noncomputable def clip_grad {e : ℕ} (g : Mat d e) (clipval : ℝ) : Mat d e :=
  if l2normM g > clipval then (5 / l2normM g) • g else g

/-- `LSTM.to_array(words)` (lstm.py:230): like the RNN's, but the lookup key
is `word.lower()`. -/
noncomputable def to_array (vectors : String → Option (Vec d)) {b : ℕ}
    (words : Fin b → String) : Mat d b :=
  Matrix.of fun i idx =>
    if words idx = "PAD" then 0
    else
      match vectors (pyLower (words idx)) with
      | some v => v i
      | none => 0

/-- The input array at time step `k`. -/
noncomputable def xsAt (P : Params d) (batch : List (List String)) (k : ℕ) :
    Mat d batch.length :=
  to_array P.vectors (wordAt batch k)

/-- The hidden state and cell state of `compute_embeddings` (lstm.py:50),
with the index shift `(hc k).1 = hs[k-1]`, `(hc k).2 = cell_states[k-1]`. -/
noncomputable def hc (P : Params d) (batch : List (List String)) :
    ℕ → Mat d batch.length × Mat d batch.length
  | 0 => (0, 0)
  | k + 1 =>
    let xs := xsAt P batch k
    let Hk := (hc P batch k).1
    let Ck := (hc P batch k).2
    let i_g := sigmoidM (addCol (P.iW * xs + P.iU * Hk) P.i_bias)
    let o_g := sigmoidM (addCol (P.oW * xs + P.oU * Hk) P.o_bias)
    let f_g := sigmoidM (addCol (P.fW * xs + P.fU * Hk) P.f_bias)
    let u := tanhM (addCol (P.uW * xs + P.uU * Hk) P.u_bias)
    let C' := hadamardM i_g u + hadamardM f_g Ck
    (hadamardM o_g (tanhM C'), C')

/-- `self.i_gates[k]` (lstm.py:63). -/
noncomputable def i_gates (P : Params d) (batch : List (List String)) (k : ℕ) :
    Mat d batch.length :=
  sigmoidM (addCol (P.iW * xsAt P batch k + P.iU * (hc P batch k).1) P.i_bias)

/-- `self.o_gates[k]` (lstm.py:64). -/
noncomputable def o_gates (P : Params d) (batch : List (List String)) (k : ℕ) :
    Mat d batch.length :=
  sigmoidM (addCol (P.oW * xsAt P batch k + P.oU * (hc P batch k).1) P.o_bias)

/-- `self.f_gates[k]` (lstm.py:65). -/
noncomputable def f_gates (P : Params d) (batch : List (List String)) (k : ℕ) :
    Mat d batch.length :=
  sigmoidM (addCol (P.fW * xsAt P batch k + P.fU * (hc P batch k).1) P.f_bias)

/-- `self.cell_inputs[k]` (lstm.py:66). -/
noncomputable def cell_inputs (P : Params d) (batch : List (List String)) (k : ℕ) :
    Mat d batch.length :=
  tanhM (addCol (P.uW * xsAt P batch k + P.uU * (hc P batch k).1) P.u_bias)

/-- `self.ys = tanh(yW @ hs[seqlen-1] + y_bias)` (lstm.py:74). -/
noncomputable def ysOf (P : Params d) (batch : List (List String)) :
    Mat d batch.length :=
  tanhM (addCol (P.yW * (hc P batch (seqlenOf batch)).1) P.y_bias)

/-- What `LSTM.forward_pass` (lstm.py:76) stores. -/
structure FwdResult (d : ℕ) where
  bsize : ℕ
  seqlen : ℕ
  ys : Mat d bsize

/-- `LSTM.forward_pass(batch)` (lstm.py:76). -/
noncomputable def forward_pass (P : Params d) (batch : List (List String)) :
    FwdResult d :=
  { bsize := batch.length, seqlen := seqlenOf batch, ys := ysOf P batch }

/-- `LSTM.get_root_embedding` (lstm.py:241). -/
def get_root_embedding (st : FwdResult d) : Mat d st.bsize := st.ys

/-- The accumulators of `LSTM.backward_pass` (lstm.py:96); `h_grad` and
`s_grad` are the running hidden-state and cell-state gradients. -/
structure BwdAcc (d b : ℕ) where
  dyW : Mat d d
  diW : Mat d d
  doW : Mat d d
  dfW : Mat d d
  duW : Mat d d
  diU : Mat d d
  doU : Mat d d
  dfU : Mat d d
  duU : Mat d d
  i_bias_grad : Vec d
  f_bias_grad : Vec d
  o_bias_grad : Vec d
  u_bias_grad : Vec d
  xgrads : String → Vec d
  h_grad : Mat d b
  s_grad : Mat d b

/-- One iteration of the reverse-time loop of `LSTM.backward_pass`
(lstm.py:124-181).  Note the loop body never assigns `self.dyW`. -/
noncomputable def bwdStep (P : Params d) (batch : List (List String))
    (acc : BwdAcc d batch.length) (i : ℕ) : BwdAcc d batch.length :=
  let d_cell_state :=
    hadamardM (hadamardM acc.h_grad (o_gates P batch i))
        (tanhGradM (tanhM (hc P batch (i + 1)).2))
      + acc.s_grad
  let d_o_gate := hadamardM (hadamardM acc.h_grad (tanhM (hc P batch (i + 1)).2))
    (sigmoidGradM (o_gates P batch i))
  let d_f_gate := hadamardM (hadamardM d_cell_state ((hc P batch i).2))
    (sigmoidGradM (f_gates P batch i))
  let d_i_gate := hadamardM (hadamardM d_cell_state (cell_inputs P batch i))
    (sigmoidGradM (i_gates P batch i))
  let d_cell_input := hadamardM (hadamardM d_cell_state (i_gates P batch i))
    (tanhGradM (cell_inputs P batch i))
  let dx := P.oWᵀ * d_o_gate + P.iWᵀ * d_i_gate + P.fWᵀ * d_f_gate + P.uWᵀ * d_cell_input
  let dh := P.oUᵀ * d_o_gate + P.iUᵀ * d_i_gate + P.fUᵀ * d_f_gate + P.uUᵀ * d_cell_input
  { dyW := acc.dyW,
    diW := acc.diW + d_i_gate * (xsAt P batch i)ᵀ,
    doW := acc.doW + d_o_gate * (xsAt P batch i)ᵀ,
    dfW := acc.dfW + d_f_gate * (xsAt P batch i)ᵀ,
    duW := acc.duW + d_cell_input * (xsAt P batch i)ᵀ,
    diU := acc.diU + d_i_gate * ((hc P batch i).1)ᵀ,
    doU := acc.doU + d_o_gate * ((hc P batch i).1)ᵀ,
    dfU := acc.dfU + d_f_gate * ((hc P batch i).1)ᵀ,
    duU := acc.duU + d_cell_input * ((hc P batch i).1)ᵀ,
    i_bias_grad := acc.i_bias_grad + rowSum d_i_gate,
    f_bias_grad := acc.f_bias_grad + rowSum d_f_gate,
    o_bias_grad := acc.o_bias_grad + rowSum d_o_gate,
    u_bias_grad := acc.u_bias_grad + rowSum d_cell_input,
    xgrads := (List.finRange batch.length).foldl (fun xg idx =>
      if wordAt batch i idx = "PAD" then xg
      else Function.update xg (pyLower (wordAt batch i idx))
        (xg (pyLower (wordAt batch i idx)) + fun rr => dx rr idx)) acc.xgrads,
    h_grad := dh,
    s_grad := hadamardM (f_gates P batch i) d_cell_state }

/-- `word_set` in `LSTM.backward_pass` (lstm.py:220): lowercased distinct
non-PAD words. -/
def word_set (batch : List (List String)) : List String :=
  (((paddedBatch batch).flatten.dedup).filter fun w => decide (¬w = "PAD")).map pyLower

/-- `all_words` in `LSTM.backward_pass` (lstm.py:221). -/
def all_words (batch : List (List String)) : List String :=
  ((paddedBatch batch).flatten.filter fun w => decide (¬w = "PAD")).map pyLower

/-- `LSTM.backward_pass(error_grad, rate)` (lstm.py:96): run the reverse-time
loop, divide the accumulators by the batch size, and update every parameter
in place.  `dyW` is computed at lstm.py:100 and then immediately overwritten
with zeros at lstm.py:105 (the zero-initialization block includes it), and
the loop never writes it, so the `yW` update subtracts zero; the embedding
computed at line 100 (`dyW0` here) is dead. -/
noncomputable def backward_pass (P : Params d) (batch : List (List String))
    (error_grad : Mat d batch.length) (rate : ℝ) : Params d :=
  let b : ℝ := (batch.length : ℝ)
  let eg := hadamardM error_grad (tanhGradM (ysOf P batch))
  let dyW0 := eg * ((hc P batch (seqlenOf batch)).1)ᵀ
  let acc0 : BwdAcc d batch.length :=
    { dyW := 0, diW := 0, doW := 0, dfW := 0, duW := 0,
      diU := 0, doU := 0, dfU := 0, duU := 0,
      i_bias_grad := 0, f_bias_grad := 0, o_bias_grad := 0, u_bias_grad := 0,
      xgrads := fun _ => 0, h_grad := P.yWᵀ * eg, s_grad := 0 }
  let acc := ((List.range (seqlenOf batch)).reverse).foldl (bwdStep P batch) acc0
  { iW := P.iW - rate • (b⁻¹ • acc.diW),
    iU := P.iU - rate • (b⁻¹ • acc.diU),
    fW := P.fW - rate • (b⁻¹ • acc.dfW),
    fU := P.fU - rate • (b⁻¹ • acc.dfU),
    oW := P.oW - rate • (b⁻¹ • acc.doW),
    oU := P.oU - rate • (b⁻¹ • acc.doU),
    uW := P.uW - rate • (b⁻¹ • acc.duW),
    uU := P.uU - rate • (b⁻¹ • acc.duU),
    yW := P.yW - rate • (b⁻¹ • acc.dyW),
    i_bias := P.i_bias - rate • (b⁻¹ • acc.i_bias_grad),
    f_bias := P.f_bias - rate • (b⁻¹ • acc.f_bias_grad),
    o_bias := P.o_bias - rate • (b⁻¹ • acc.o_bias_grad),
    u_bias := P.u_bias - rate • (b⁻¹ • acc.u_bias_grad),
    y_bias := P.y_bias - rate • (b⁻¹ • rowSum eg),
    vectors := (word_set batch).foldl (fun vecs w =>
      match vecs w with
      | some v => Function.update vecs w
          (some (v - rate • (((all_words batch).count w : ℝ))⁻¹ • (b⁻¹ • acc.xgrads w)))
      | none => vecs) P.vectors }

end LSTM


/-!
## TreeLSTM (lstm.py)

The dependency-tree model with LSTM cells and syntactically tied weights.
-/

/-- Elementwise sigmoid on a column vector. -/
noncomputable def sigmoidV {d : ℕ} (v : Vec d) : Vec d := fun i => sigmoid (v i)

namespace TreeLSTM

/-- The TreeLSTM's parameters: gate weight matrices/biases and the embedding
table (a plain dict, lookup can fail). -/
structure Params (d : ℕ) where
  iW : Mat d d
  iU : Mat d d
  fW : Mat d d
  fU : Mat d d
  oW : Mat d d
  oU : Mat d d
  uW : Mat d d
  uU : Mat d d
  i_bias : Vec d
  f_bias : Vec d
  o_bias : Vec d
  u_bias : Vec d
  vectors : String → Option (Vec d)

/-- The per-node scratch fields `update_node` assigns (lstm.py:382).
`f_gates` is a dict keyed by child index in the source; we extend it to a
total function computed by the same formula (only child entries are read). -/
structure NodeData (n d : ℕ) where
  h_tilda : Vec d
  inp_vec : Vec d
  i_gate : Vec d
  o_gate : Vec d
  cell_input : Vec d
  cell_state : Vec d
  f_gates : Fin n → Vec d
  embedding : Vec d

/-- Scratch fields before a node is visited (absent attributes, as zeros). -/
def initNodeData (n d : ℕ) : NodeData n d :=
  { h_tilda := 0, inp_vec := 0, i_gate := 0, o_gate := 0, cell_input := 0,
    cell_state := 0, f_gates := fun _ => 0, embedding := 0 }

variable {n d : ℕ}

/-- `update_node(node, children)` (lstm.py:382): compute the LSTM cell state
of a node from its children: `h_tilda` is the sum of children embeddings (or
zeros for a leaf), `inp_vec` the word vector (zeros on `KeyError`), then the
standard gates, with one forget gate per child, and
`embedding = o_gate * tanh(cell_state)`. -/
noncomputable def update_node (P : Params d) (t : DepTree n) (i : Fin n)
    (dat : Fin n → NodeData n d) : NodeData n d :=
  let children := t.children i
  let h_tilda : Vec d :=
    if 0 < children.length then (children.map fun c => (dat c).embedding).sum else 0
  let inp_vec : Vec d := (P.vectors (t.lower i)).getD 0
  let i_gate := sigmoidV (P.iW.mulVec inp_vec + P.iU.mulVec h_tilda + P.i_bias)
  let o_gate := sigmoidV (P.oW.mulVec inp_vec + P.oU.mulVec h_tilda + P.o_bias)
  let cell_input := tanhV (P.uW.mulVec inp_vec + P.uU.mulVec h_tilda + P.u_bias)
  let f_gates : Fin n → Vec d :=
    fun j => sigmoidV (P.fW.mulVec inp_vec + P.fU.mulVec ((dat j).embedding) + P.f_bias)
  let cell_state :=
    children.foldl (fun acc c => acc + hadamard (f_gates c) ((dat c).cell_state))
      (hadamard i_gate cell_input)
  { h_tilda := h_tilda, inp_vec := inp_vec, i_gate := i_gate, o_gate := o_gate,
    cell_input := cell_input, cell_state := cell_state, f_gates := f_gates,
    embedding := hadamard o_gate (tanhV cell_state) }

/-- The per-node state update of the TreeLSTM forward traversal. -/
noncomputable def fwdTouch (P : Params d) (t : DepTree n) (i : Fin n)
    (dat : Fin n → NodeData n d) : Fin n → NodeData n d :=
  Function.update dat i (update_node P t i dat)

/-- `TreeLSTM.compute_embeddings` (lstm.py:291): same repeated-full-pass
recursion as the DependencyNetwork, with the LSTM cell. -/
noncomputable def compute_embeddings (P : Params d) (t : DepTree n) (fuel : ℕ)
    (st : PassState n (Fin n → NodeData n d)) : PassState n (Fin n → NodeData n d) :=
  runPasses (childrenReady t) (fwdTouch P t) fuel st

/-- The state at tree construction: nothing computed. -/
def initFwdState (n d : ℕ) : PassState n (Fin n → NodeData n d) :=
  { data := fun _ => initNodeData n d, computed := fun _ => false }

/-- `TreeLSTM.forward_pass` (lstm.py:448): compute all cell states, then
`reset_comp_graph`. -/
noncomputable def forward_pass (P : Params d) (t : DepTree n) :
    PassState n (Fin n → NodeData n d) :=
  let st := compute_embeddings P t n (initFwdState n d)
  { data := st.data, computed := fun _ => false }

/-- `TreeLSTM.get_root_embedding` (lstm.py:516). -/
def get_root_embedding (t : DepTree n) (dat : Fin n → NodeData n d) : Option (Vec d) :=
  ((List.finRange n).find? fun i => decide (t.head i = i)).map fun i => (dat i).embedding

end TreeLSTM


namespace TreeLSTM

/-- `TreeLSTM.clip_gradient(gradient, clipval)` (lstm.py:283): unlike the
chain models' clip functions, this one rescales to `clipval` itself. -/
noncomputable def clip_gradient {d e : ℕ} (g : Mat d e) (clipval : ℝ) : Mat d e :=
  if l2normM g > clipval then (clipval / l2normM g) • g else g

end TreeLSTM


/-!
## DependencyNetwork backward pass (networks.py:452)
-/

namespace DependencyNetwork

variable {n d : ℕ}

/-- The mutable data of `backward_pass`: per-node gradients and the
`defaultdict` accumulators `wgrads`, `bgrads`, `xgrads` and `dwm`.
`wkeys` records the keys inserted into `wgrads`/`bgrads` (the two
defaultdicts acquire exactly the same keys, in the same insertion order). -/
structure BwdData (n d : ℕ) where
  grad : Fin n → Vec d
  wgrads : String → Mat d d
  bgrads : String → Vec d
  xgrads : String → Vec d
  wkeys : List String
  dwm : Mat d d

/-- The accumulators at the start of `backward_pass`: all zeros, no keys,
no node gradients assigned yet (absent attribute, modelled as zeros). -/
def initBwdData (n d : ℕ) : BwdData n d :=
  { grad := fun _ => 0, wgrads := fun _ => 0, bgrads := fun _ => 0,
    xgrads := fun _ => 0, wkeys := [], dwm := 0 }

/-- `_update_word_grad(node)` (networks.py:491) applied to data `dat` for a
node with text `w`, gradient `g`: `xgrads[w] += wm.T @ g`, and
`dwm += np.outer(g, vectors[w])` unless the word lookup raises `KeyError`. -/
noncomputable def updateWordGrad (wm : Mat d d) (vectors : String → Option (Vec d))
    (w : String) (g : Vec d) (dat : BwdData n d) : BwdData n d :=
  { dat with
    xgrads := Function.update dat.xgrads w (dat.xgrads w + wmᵀ.mulVec g),
    dwm := dat.dwm + (match vectors w with | some v => outerProd g v | none => 0) }

/-- One iteration of the `_set_root_gradient` loop (networks.py:498): every
self-headed node gets gradient `error_grad * tanh_grad(root_embedding)`, is
flagged computed, and contributes its word gradient. -/
noncomputable def setRootGradientStep (wm : Mat d d) (vectors : String → Option (Vec d))
    (t : DepTree n) (error_grad rootEmb : Vec d)
    (st : PassState n (BwdData n d)) (i : Fin n) : PassState n (BwdData n d) :=
  if t.head i = i then
    let g := hadamard error_grad (tanhGradV rootEmb)
    { data := updateWordGrad wm vectors (t.text i) g
        { st.data with grad := Function.update st.data.grad i g },
      computed := Function.update st.computed i true }
  else st

/-- `_set_root_gradient(grad)`: the loop over the tree.  `rootEmb` is
`get_root_embedding()` (the source re-reads it inside the loop; the
embeddings do not change during seeding). -/
noncomputable def setRootGradient (wm : Mat d d) (vectors : String → Option (Vec d))
    (t : DepTree n) (emb : Fin n → Vec d) (error_grad : Vec d) :
    PassState n (BwdData n d) :=
  (List.finRange n).foldl
    (setRootGradientStep wm vectors t error_grad ((get_root_embedding t emb).getD 0))
    { data := initBwdData n d, computed := fun _ => false }

/-- The body of `compute_gradients` (networks.py:364) for one eligible node:
clip the parent's gradient in place, accumulate
`wgrads[node.dep_] += np.outer(parent.gradient, node.embedding)` and
`bgrads[node.dep_] += parent.gradient`, set the node's own gradient to
`(weights[node.dep_].T @ parent.gradient) * tanh_grad(node.embedding)`,
and accumulate the word gradient. -/
noncomputable def bwdTouch (wm : Mat d d) (weights : String → Mat d d)
    (vectors : String → Option (Vec d)) (t : DepTree n) (emb : Fin n → Vec d)
    (i : Fin n) (dat : BwdData n d) : BwdData n d :=
  let p := t.head i
  let pg := clip_gradient (dat.grad p) 5
  let wgrad := outerProd pg (emb i)
  let cgrad := (weights (t.dep i))ᵀ.mulVec pg
  let g := hadamard cgrad (tanhGradV (emb i))
  updateWordGrad wm vectors (t.text i) g
    { dat with
      grad := Function.update (Function.update dat.grad p pg) i g,
      wgrads := Function.update dat.wgrads (t.dep i) (dat.wgrads (t.dep i) + wgrad),
      bgrads := Function.update dat.bgrads (t.dep i) (dat.bgrads (t.dep i) + pg),
      wkeys := if t.dep i ∈ dat.wkeys then dat.wkeys else dat.wkeys ++ [t.dep i] }

/-- `compute_gradients` (networks.py:364): repeat full passes (a node is
eligible once its parent is computed) until every node is computed. -/
noncomputable def compute_gradients (wm : Mat d d) (weights : String → Mat d d)
    (vectors : String → Option (Vec d)) (t : DepTree n) (emb : Fin n → Vec d)
    (fuel : ℕ) (st : PassState n (BwdData n d)) : PassState n (BwdData n d) :=
  runPasses (parentReady t) (bwdTouch wm weights vectors t emb) fuel st

/-- The final traversal state of one `backward_pass` call: seed the root
gradient, then run `compute_gradients`. -/
noncomputable def bwdFinal (wm : Mat d d) (weights : String → Mat d d)
    (vectors : String → Option (Vec d)) (t : DepTree n) (emb : Fin n → Vec d)
    (error_grad : Vec d) (fuel : ℕ) : PassState n (BwdData n d) :=
  compute_gradients wm weights vectors t emb fuel
    (setRootGradient wm vectors t emb error_grad)

/-- `depcount` in `update_weights` (networks.py:439): the number of nodes of
the current tree whose dependency label is `dep`. -/
def depcount (t : DepTree n) (dep : String) : ℕ :=
  ((List.finRange n).filter fun i => decide (t.dep i = dep)).length

/-- The number of tree nodes with text `w`
(`update_word_embeddings`, networks.py:431). -/
def wordcount (t : DepTree n) (w : String) : ℕ :=
  ((List.finRange n).filter fun i => decide (t.text i = w)).length

/-- `update_weights` (networks.py:436): for each key of `wgrads`,
`weights[dep] -= rate * wgrads[dep] / depcount` and likewise for the bias;
then `wm -= rate * (dwm / len(tree))`. -/
noncomputable def update_weights (t : DepTree n) (rate : ℝ)
    (weights : String → Mat d d) (biases : String → Vec d) (wm : Mat d d)
    (dat : BwdData n d) :
    (String → Mat d d) × (String → Vec d) × Mat d d :=
  ( dat.wkeys.foldl (fun ws dep =>
      Function.update ws dep (ws dep - (rate / (depcount t dep : ℝ)) • dat.wgrads dep)) weights,
    dat.wkeys.foldl (fun bs dep =>
      Function.update bs dep (bs dep - (rate / (depcount t dep : ℝ)) • dat.bgrads dep)) biases,
    wm - (rate / (n : ℝ)) • dat.dwm )

/-- `update_word_embeddings` (networks.py:426): for each node in tree order,
`vectors[word] -= rate * xgrads[word] / count` where `count` is the number of
tree nodes with that word; nodes whose word misses the table are skipped
(`KeyError`). -/
noncomputable def update_word_embeddings (t : DepTree n) (rate : ℝ)
    (vectors : String → Option (Vec d)) (dat : BwdData n d) :
    String → Option (Vec d) :=
  (List.finRange n).foldl (fun vecs i =>
    match vecs (t.text i) with
    | some v => Function.update vecs (t.text i)
        (some (v - (rate / (wordcount t (t.text i) : ℝ)) • dat.xgrads (t.text i)))
    | none => vecs) vectors

/-- `backward_pass(error_grad, rate)` (networks.py:452): run the gradient
traversal, then update weights, biases, `wm` and word embeddings.  Returns
the updated parameter store. -/
noncomputable def backward_pass (wm : Mat d d) (weights : String → Mat d d)
    (biases : String → Vec d) (vectors : String → Option (Vec d))
    (t : DepTree n) (emb : Fin n → Vec d) (error_grad : Vec d) (rate : ℝ)
    (fuel : ℕ) :
    (String → Mat d d) × (String → Vec d) × Mat d d × (String → Option (Vec d)) :=
  let fin := bwdFinal wm weights vectors t emb error_grad fuel
  let upd := update_weights t rate weights biases wm fin.data
  (upd.1, upd.2.1, upd.2.2, update_word_embeddings t rate vectors fin.data)

end DependencyNetwork


namespace DependencyNetwork

variable {n d : ℕ}

/-- The backward-traversal invariant: the root is computed; every computed
non-root node has a computed parent whose recorded gradient is clip-fixed;
`wgrads`/`bgrads` hold exactly the sums of the per-occurrence contributions
of the computed non-root nodes; and the key list holds exactly the labels of
those nodes, without duplicates. -/
def BwdInv (t : DepTree n) (r : Fin n) (emb : Fin n → Vec d)
    (st : PassState n (BwdData n d)) : Prop :=
  st.computed r = true ∧
  (∀ i, st.computed i = true → i ≠ r → st.computed (t.head i) = true) ∧
  (∀ i, st.computed i = true → i ≠ r →
    clip_gradient (st.data.grad (t.head i)) 5 = st.data.grad (t.head i)) ∧
  (∀ dep, st.data.wgrads dep =
    ∑ i ∈ Finset.univ.filter
        (fun i => st.computed i = true ∧ ¬i = r ∧ t.dep i = dep),
      outerProd (st.data.grad (t.head i)) (emb i)) ∧
  (∀ dep, st.data.bgrads dep =
    ∑ i ∈ Finset.univ.filter
        (fun i => st.computed i = true ∧ ¬i = r ∧ t.dep i = dep),
      st.data.grad (t.head i)) ∧
  st.data.wkeys.Nodup ∧
  (∀ dep, dep ∈ st.data.wkeys ↔
    ∃ i, st.computed i = true ∧ ¬i = r ∧ t.dep i = dep)

end DependencyNetwork

/-!
## Persistence (networks.py:332-351) and gradient clipping variants
-/

/-- The live parameter state of a `DependencyNetwork` that persistence deals
with: exactly the attributes `save` writes and `load` restores. -/
structure DepNetState where
  dim : ℕ
  vocab : List String
  weights : String → Matrix (Fin dim) (Fin dim) ℝ
  biases : String → Fin dim → ℝ
  wm : Matrix (Fin dim) (Fin dim) ℝ
  vectors : String → Option (Fin dim → ℝ)

/-- The pickled record `save` writes (networks.py:334): the keys `biases`,
`weights`, `wm`, `vectors`, `vocab`, `dim`.  Pickle itself is the external
persistence format, modelled as faithful transport of this record. -/
structure SavedParams where
  dim : ℕ
  vocab : List String
  weights : String → Matrix (Fin dim) (Fin dim) ℝ
  biases : String → Fin dim → ℝ
  wm : Matrix (Fin dim) (Fin dim) ℝ
  vectors : String → Option (Fin dim → ℝ)

/-- `DependencyNetwork.save` (networks.py:332): write all six persisted
fields. -/
def saveParams (s : DepNetState) : SavedParams :=
  { dim := s.dim, vocab := s.vocab, weights := s.weights, biases := s.biases,
    wm := s.wm, vectors := s.vectors }

/-- `DependencyNetwork.load` (networks.py:341): replace all six persisted
attributes of the current network with the unpickled values (the previous
state is discarded wholesale). -/
def loadParams (_old : DepNetState) (p : SavedParams) : DepNetState :=
  { dim := p.dim, vocab := p.vocab, weights := p.weights, biases := p.biases,
    wm := p.wm, vectors := p.vectors }


section EngineLemmas

variable {ready : (Fin n → Bool) → Fin n → Bool} {touch : Fin n → σ → σ}

theorem passStep_computed_mono (st : PassState n σ) (i j : Fin n)
    (h : st.computed j = true) : (passStep ready touch st i).computed j = true := by
  unfold passStep
  split
  · exact h
  · split
    · by_cases hij : j = i
      · subst hij; simp [Function.update]
      · simpa [Function.update, hij] using h
    · exact h

theorem foldl_passStep_computed_mono (l : List (Fin n)) (st : PassState n σ) (j : Fin n)
    (h : st.computed j = true) :
    (l.foldl (passStep ready touch) st).computed j = true := by
  induction l generalizing st with
  | nil => exact h
  | cons a l ih => exact ih _ (passStep_computed_mono st a j h)

theorem fullPass_computed_mono (st : PassState n σ) (j : Fin n)
    (h : st.computed j = true) : (fullPass ready touch st).computed j = true :=
  foldl_passStep_computed_mono _ st j h

/-- A node that is ready at the start of a full pass is computed by its end
(provided `ready` is monotone in the computed flags). -/
theorem fullPass_computes
    (hr : ∀ c c' : Fin n → Bool, (∀ j, c j = true → c' j = true) →
      ∀ i, ready c i = true → ready c' i = true)
    (st : PassState n σ) (i : Fin n) (h : ready st.computed i = true) :
    (fullPass ready touch st).computed i = true := by
  obtain ⟨l1, l2, hsplit⟩ := List.append_of_mem (List.mem_finRange i)
  unfold fullPass
  rw [hsplit, List.foldl_append, List.foldl_cons]
  set st1 := l1.foldl (passStep ready touch) st with hst1
  have hmono : ∀ j, st.computed j = true → st1.computed j = true := fun j hj =>
    foldl_passStep_computed_mono l1 st j hj
  have hready1 : ready st1.computed i = true := hr _ _ hmono i h
  have hstep : (passStep ready touch st1 i).computed i = true := by
    unfold passStep
    by_cases hc : st1.computed i = true
    · rw [if_pos hc]; exact hc
    · rw [if_neg hc, if_pos hready1]; simp [Function.update]
  exact foldl_passStep_computed_mono l2 _ i hstep

theorem iterate_fullPass_computed_mono (p : ℕ) (st : PassState n σ) (i : Fin n)
    (h : st.computed i = true) :
    ((fullPass ready touch)^[p] st).computed i = true := by
  induction p with
  | zero => exact h
  | succ p ih =>
    rw [Function.iterate_succ_apply']
    exact fullPass_computed_mono _ i ih

/-- Iterated full passes compute every node, by induction on a measure `μ`
that strictly decreases from a node to the nodes its readiness depends on. -/
theorem iterate_fullPass_computes
    (hr : ∀ c c' : Fin n → Bool, (∀ j, c j = true → c' j = true) →
      ∀ i, ready c i = true → ready c' i = true)
    (st0 : PassState n σ) (μ : Fin n → ℕ)
    (hstep : ∀ (c : Fin n → Bool) (i : Fin n), 0 < μ i →
      (∀ j, μ j < μ i → c j = true) → ready c i = true)
    (hzero : ∀ i, μ i = 0 → (∀ c, ready c i = true) ∨ st0.computed i = true) :
    ∀ p i, μ i < p → ((fullPass ready touch)^[p] st0).computed i = true := by
  intro p
  induction p with
  | zero => intro i h; omega
  | succ p ih =>
    intro i h
    rw [Function.iterate_succ_apply']
    by_cases hlt : μ i < p
    · exact fullPass_computed_mono _ i (ih i hlt)
    · have hμ : μ i = p := by omega
      rcases Nat.eq_zero_or_pos (μ i) with h0 | hpos
      · rcases hzero i h0 with hrdy | hcomp
        · exact fullPass_computes hr _ i (hrdy _)
        · exact fullPass_computed_mono _ i (iterate_fullPass_computed_mono p st0 i hcomp)
      · have hready : ready ((fullPass ready touch)^[p] st0).computed i = true :=
          hstep _ i hpos (fun j hj => ih j (by omega))
        exact fullPass_computes hr _ i hready

/-- If all nodes are computed within `k` iterated passes and `k ≤ fuel`, then
the fueled recursion also ends with all nodes computed. -/
theorem runPasses_computed_of_iterate (fuel : ℕ) (st : PassState n σ) (k : ℕ)
    (hk : k ≤ fuel)
    (hall : ∀ i, ((fullPass ready touch)^[k] st).computed i = true) :
    ∀ i, (runPasses ready touch fuel st).computed i = true := by
  induction fuel generalizing st k with
  | zero =>
    intro i
    have hk0 : k = 0 := by omega
    subst hk0
    exact hall i
  | succ fuel ih =>
    intro i
    unfold runPasses
    split
    · next hc =>
      exact (List.all_eq_true.1 hc) i (List.mem_finRange i)
    · next hc =>
      have hk1 : k ≠ 0 := by
        intro h0
        subst h0
        apply hc
        exact List.all_eq_true.2 fun j _ =>
          fullPass_computed_mono _ j (hall j)
      obtain ⟨k', rfl⟩ : ∃ k', k = k' + 1 := ⟨k - 1, by omega⟩
      refine ih _ k' (by omega) (fun j => ?_) i
      have := hall j
      rwa [Function.iterate_succ_apply] at this

/-- Any predicate preserved by a single loop iteration is preserved by the
whole fueled traversal. -/
theorem runPasses_inv (P : PassState n σ → Prop)
    (hstep : ∀ st i, P st → P (passStep ready touch st i)) (fuel : ℕ)
    (st : PassState n σ) (h : P st) : P (runPasses ready touch fuel st) := by
  have hfull : ∀ st, P st → P (fullPass ready touch st) := by
    intro st h
    unfold fullPass
    generalize List.finRange n = l
    induction l generalizing st with
    | nil => exact h
    | cons a l ih => exact ih _ (hstep st a h)
  induction fuel generalizing st with
  | zero => exact h
  | succ fuel ih =>
    unfold runPasses
    split
    · exact hfull st h
    · exact ih _ (hfull st h)

/-- If the computed flags at the start of a pass make no unready, uncomputed
node ready and every node uncomputed, touched data accumulates…  (progress):
whenever some node is still uncomputed after `p` passes, the next pass
computes at least one previously-uncomputed node. -/
theorem fullPass_progress
    (hr : ∀ c c' : Fin n → Bool, (∀ j, c j = true → c' j = true) →
      ∀ i, ready c i = true → ready c' i = true)
    (st0 : PassState n σ) (μ : Fin n → ℕ)
    (hstep : ∀ (c : Fin n → Bool) (i : Fin n), 0 < μ i →
      (∀ j, μ j < μ i → c j = true) → ready c i = true)
    (hzero : ∀ i, μ i = 0 → (∀ c, ready c i = true) ∨ st0.computed i = true)
    (st : PassState n σ)
    (hmono0 : ∀ i, st0.computed i = true → st.computed i = true)
    (hne : ∃ i, st.computed i = false) :
    ∃ i, st.computed i = false ∧ (fullPass ready touch st).computed i = true := by
  classical
  let S : Finset (Fin n) := Finset.univ.filter fun i => st.computed i = false
  have hSne : S.Nonempty := by
    obtain ⟨i, hi⟩ := hne
    exact ⟨i, by simp [S, hi]⟩
  obtain ⟨i, hiS, hmin⟩ := S.exists_min_image μ hSne
  have hiuncomp : st.computed i = false := by
    have := Finset.mem_filter.1 hiS
    exact this.2
  refine ⟨i, hiuncomp, ?_⟩
  rcases Nat.eq_zero_or_pos (μ i) with h0 | hpos
  · rcases hzero i h0 with hrdy | hcomp
    · exact fullPass_computes hr _ i (hrdy _)
    · exact absurd (hmono0 i hcomp) (by simp [hiuncomp])
  · have hready : ready st.computed i = true := by
      apply hstep _ i hpos
      intro j hj
      by_contra hjc
      have hjS : j ∈ S := by
        simp only [S, Finset.mem_filter, Finset.mem_univ, true_and]
        exact Bool.eq_false_iff.2 fun h => hjc h
      exact absurd (hmin j hjS) (by omega)
    exact fullPass_computes hr _ i hready

end EngineLemmas


section TreeTraversal

variable {n : ℕ} {σ : Type} (t : DepTree n)

theorem childrenReady_mono :
    ∀ c c' : Fin n → Bool, (∀ j, c j = true → c' j = true) →
      ∀ i, childrenReady t c i = true → childrenReady t c' i = true := by
  intro c c' h i hc
  unfold childrenReady at *
  rw [List.all_eq_true] at *
  exact fun j hj => h j (hc j hj)

theorem parentReady_mono :
    ∀ c c' : Fin n → Bool, (∀ j, c j = true → c' j = true) →
      ∀ i, parentReady t c i = true → parentReady t c' i = true := by
  intro c c' h i hc
  exact h _ hc

/-- In a rooted acyclic tree, a child's head-distance to the root is one more
than its parent's. -/
theorem dist_child (r : Fin n) (hroot : t.head r = r)
    (hex : ∀ a, ∃ k, t.head^[k] a = r) (i j : Fin n)
    (hj : t.head j = i) (hne : j ≠ i) :
    Nat.find (hex j) = Nat.find (hex i) + 1 := by
  have hjr : j ≠ r := by
    intro h
    subst h
    exact hne (by rw [← hj, hroot])
  have hupper : Nat.find (hex j) ≤ Nat.find (hex i) + 1 := by
    apply Nat.find_min'
    rw [Function.iterate_succ_apply, hj]
    exact Nat.find_spec (hex i)
  have hne0 : Nat.find (hex j) ≠ 0 := by
    intro h0
    have := Nat.find_spec (hex j)
    rw [h0] at this
    exact hjr this
  obtain ⟨m, hm⟩ : ∃ m, Nat.find (hex j) = m + 1 := ⟨Nat.find (hex j) - 1, by omega⟩
  have hlower : Nat.find (hex i) ≤ m := by
    apply Nat.find_min'
    have := Nat.find_spec (hex j)
    rw [hm, Function.iterate_succ_apply, hj] at this
    exact this
  omega

/-- The self-headed root is the unique node at head-distance zero. -/
theorem dist_eq_zero_iff (r : Fin n) (hex : ∀ a, ∃ k, t.head^[k] a = r) (i : Fin n) :
    Nat.find (hex i) = 0 ↔ i = r := by
  rw [Nat.find_eq_zero]
  exact Iff.rfl

/-- Forward traversal termination: on a tree where every node reaches the
self-headed root `r` in fewer than `D` head-steps, `D` full passes (with any
cell function `touch`, from any start state) compute every node. -/
theorem tree_forward_all_computed (r : Fin n) (D : ℕ) (hroot : t.head r = r)
    (hreach : ∀ i, ∃ k, k < D ∧ t.head^[k] i = r)
    (touch : Fin n → σ → σ) (fuel : ℕ) (hfuel : D ≤ fuel) (st0 : PassState n σ) :
    ∀ i, (runPasses (childrenReady t) touch fuel st0).computed i = true := by
  have hex : ∀ a, ∃ k, t.head^[k] a = r := fun a => (hreach a).imp fun _ hk => hk.2
  have hdlt : ∀ a, Nat.find (hex a) < D := by
    intro a
    obtain ⟨k, hkD, hk⟩ := hreach a
    exact lt_of_le_of_lt (Nat.find_min' _ hk) hkD
  set μ : Fin n → ℕ := fun a => D - 1 - Nat.find (hex a) with hμ
  apply runPasses_computed_of_iterate fuel st0 D hfuel
  intro i
  apply iterate_fullPass_computes (childrenReady_mono t) st0 μ
  · intro c i hpos hsmall
    unfold childrenReady
    rw [List.all_eq_true]
    intro j hjmem
    have hj := of_decide_eq_true (List.mem_filter.1 hjmem).2
    apply hsmall
    have := dist_child t r hroot hex i j hj.1 hj.2
    have h1 := hdlt i
    have h2 := hdlt j
    simp only [hμ] at *
    omega
  · intro i h0
    left
    intro c
    unfold childrenReady
    rw [List.all_eq_true]
    intro j hjmem
    exfalso
    have hj := of_decide_eq_true (List.mem_filter.1 hjmem).2
    have := dist_child t r hroot hex i j hj.1 hj.2
    have h1 := hdlt i
    have h2 := hdlt j
    simp only [hμ] at h0
    omega
  · have := hdlt i
    simp only [hμ]
    omega

/-- Every leaf (a node with no children) is computed by the very first pass. -/
theorem tree_forward_leaf_pass1 (touch : Fin n → σ → σ) (st : PassState n σ)
    (i : Fin n) (hleaf : t.children i = []) :
    (fullPass (childrenReady t) touch st).computed i = true := by
  apply fullPass_computes (childrenReady_mono t)
  unfold childrenReady
  rw [hleaf]
  rfl

/-- Each full pass over a rooted acyclic tree computes at least one
previously-uncomputed node, as long as any node remains uncomputed. -/
theorem tree_forward_progress (r : Fin n) (D : ℕ) (hroot : t.head r = r)
    (hreach : ∀ i, ∃ k, k < D ∧ t.head^[k] i = r)
    (touch : Fin n → σ → σ) (st : PassState n σ)
    (hne : ∃ i, st.computed i = false) :
    ∃ i, st.computed i = false ∧ (fullPass (childrenReady t) touch st).computed i = true := by
  have hex : ∀ a, ∃ k, t.head^[k] a = r := fun a => (hreach a).imp fun _ hk => hk.2
  have hdlt : ∀ a, Nat.find (hex a) < D := by
    intro a
    obtain ⟨k, hkD, hk⟩ := hreach a
    exact lt_of_le_of_lt (Nat.find_min' _ hk) hkD
  apply fullPass_progress (childrenReady_mono t) st (fun a => D - 1 - Nat.find (hex a))
  · intro c i hpos hsmall
    unfold childrenReady
    rw [List.all_eq_true]
    intro j hjmem
    have hj := of_decide_eq_true (List.mem_filter.1 hjmem).2
    apply hsmall
    have := dist_child t r hroot hex i j hj.1 hj.2
    have h1 := hdlt i
    have h2 := hdlt j
    omega
  · intro i h0
    left
    intro c
    unfold childrenReady
    rw [List.all_eq_true]
    intro j hjmem
    exfalso
    have hj := of_decide_eq_true (List.mem_filter.1 hjmem).2
    have := dist_child t r hroot hex i j hj.1 hj.2
    have h1 := hdlt i
    have h2 := hdlt j
    omega
  · exact fun i h => h
  · exact hne

/-- Backward traversal termination: if the root is computed in the start
state, `D` full parent-ready passes compute every node. -/
theorem tree_backward_all_computed (r : Fin n) (D : ℕ) (hroot : t.head r = r)
    (hreach : ∀ i, ∃ k, k < D ∧ t.head^[k] i = r)
    (touch : Fin n → σ → σ) (fuel : ℕ) (hfuel : D ≤ fuel) (st0 : PassState n σ)
    (hcomp0 : st0.computed r = true) :
    ∀ i, (runPasses (parentReady t) touch fuel st0).computed i = true := by
  have hex : ∀ a, ∃ k, t.head^[k] a = r := fun a => (hreach a).imp fun _ hk => hk.2
  have hdlt : ∀ a, Nat.find (hex a) < D := by
    intro a
    obtain ⟨k, hkD, hk⟩ := hreach a
    exact lt_of_le_of_lt (Nat.find_min' _ hk) hkD
  apply runPasses_computed_of_iterate fuel st0 D hfuel
  intro i
  apply iterate_fullPass_computes (parentReady_mono t) st0 (fun a => Nat.find (hex a))
  · intro c i hpos hsmall
    unfold parentReady
    apply hsmall
    have hir : i ≠ r := by
      intro h
      rw [(dist_eq_zero_iff t r hex i).2 h] at hpos
      omega
    have hne : i ≠ t.head i := by
      intro h
      have : ∀ k, t.head^[k] i = i := by
        intro k
        induction k with
        | zero => rfl
        | succ k ih => rw [Function.iterate_succ_apply, ← h, ih]
      obtain ⟨k, hk⟩ := hex i
      exact hir (by rw [this k] at hk; exact hk)
    have := dist_child t r hroot hex (t.head i) i rfl hne
    omega
  · intro i h0
    right
    rw [(dist_eq_zero_iff t r hex i).1 h0]
    exact hcomp0
  · exact hdlt i

end TreeTraversal


section TanhFacts

/-- `Real.tanh` never attains 1 (`cosh x - sinh x = exp (-x) > 0`). -/
theorem real_tanh_ne_one (x : ℝ) : Real.tanh x ≠ 1 := by
  rw [Real.tanh_eq_sinh_div_cosh]
  intro h
  rw [div_eq_one_iff_eq (Real.cosh_pos x).ne'] at h
  have hexp := Real.exp_pos (-x)
  rw [← Real.cosh_sub_sinh x, h] at hexp
  simp at hexp

/-- `Real.tanh` is injective. -/
theorem real_tanh_injective : Function.Injective Real.tanh := by
  intro x y h
  rw [Real.tanh_eq_sinh_div_cosh, Real.tanh_eq_sinh_div_cosh,
    div_eq_div_iff (Real.cosh_pos x).ne' (Real.cosh_pos y).ne'] at h
  have hsub : Real.sinh (x - y) = 0 := by
    rw [Real.sinh_sub]
    linarith
  have h0 : Real.sinh (x - y) = Real.sinh 0 := by rw [hsub, Real.sinh_zero]
  have := Real.sinh_injective h0
  linarith

end TanhFacts

/-- Helper: the root embedding the code actually computes in the concrete
scenario, for arbitrary fixed word vectors: the leaf "cat" gets
`tanh(wm @ vector("cat")) = tanh(vector("cat"))` (the nonlinearity applies
at leaves too), and the root gets `tanh(vector("sat") + tanh(vector("cat")))`. -/
theorem c1_root_embedding (vcat vsat : Vec 4) :
    DependencyNetwork.get_root_embedding c1Tree
      (DependencyNetwork.forward_pass 1 (fun _ => 1) (fun _ => 0)
        (c1Vectors vcat vsat) c1Tree).data
      = some (fun j => Real.tanh (vsat j + Real.tanh (vcat j))) := by
  have hfr : List.finRange 2 = [0, 1] := by decide
  have hch0 : c1Tree.children 0 = [] := by decide
  have hch1 : c1Tree.children 1 = [0] := by decide
  have ht0 : c1Tree.text 0 = "cat" := rfl
  have ht1 : c1Tree.text 1 = "sat" := rfl
  have hd0 : c1Tree.dep 0 = "nsubj" := rfl
  have hv0 : c1Vectors vcat vsat "cat" = some vcat := rfl
  have hv1 : c1Vectors vcat vsat "sat" = some vsat := rfl
  have hh0 : (decide (c1Tree.head 0 = 0)) = false := by decide
  have hh1 : (decide (c1Tree.head 1 = 1)) = true := by decide
  unfold DependencyNetwork.forward_pass DependencyNetwork.compute_embeddings
  simp only [runPasses, fullPass, hfr, List.foldl_cons, List.foldl_nil]
  simp only [passStep, childrenReady, DependencyNetwork.fwdTouch,
    DependencyNetwork.embed_node, DependencyNetwork.initFwdState,
    hch0, hch1, ht0, ht1, hd0, hv0, hv1,
    List.all_nil, List.all_cons, List.all_eq_true, List.foldl_cons, List.foldl_nil]
  simp only [Function.update, DependencyNetwork.get_root_embedding, List.find?, hh0, hh1]
  simp [Matrix.one_mulVec]
  refine ⟨1, ?_, ?_⟩
  · rw [hh0, hh1]
  · funext j
    simp [Function.update, tanhV, Pi.add_apply]


section NormFacts

variable {d : ℕ}

theorem l2norm_smul (a : ℝ) (g : Vec d) : l2norm (a • g) = |a| * l2norm g := by
  unfold l2norm
  have h : ∑ i, (a • g) i ^ 2 = a ^ 2 * ∑ i, g i ^ 2 := by
    rw [Finset.mul_sum]
    refine Finset.sum_congr rfl fun i _ => ?_
    simp [mul_pow]
  rw [h, Real.sqrt_mul (sq_nonneg a), Real.sqrt_sq_eq_abs]

theorem l2norm_nonneg (g : Vec d) : 0 ≤ l2norm g := Real.sqrt_nonneg _

/-- A gradient whose norm exceeds a nonnegative `clipval` is rescaled to norm
exactly `clipval`. -/
theorem clip_gradient_norm (g : Vec d) (c : ℝ) (hc : 0 ≤ c) (h : l2norm g > c) :
    l2norm (DependencyNetwork.clip_gradient g c) = c := by
  unfold DependencyNetwork.clip_gradient
  rw [if_pos h, l2norm_smul]
  have hn : 0 < l2norm g := lt_of_le_of_lt hc h
  rw [abs_of_nonneg (div_nonneg hc hn.le)]
  field_simp

/-- `clip_gradient` is idempotent (for a nonnegative `clipval`), so repeated
in-place clipping of a parent's gradient is harmless. -/
theorem clip_gradient_idem (g : Vec d) (c : ℝ) (hc : 0 ≤ c) :
    DependencyNetwork.clip_gradient (DependencyNetwork.clip_gradient g c) c
      = DependencyNetwork.clip_gradient g c := by
  by_cases h : l2norm g > c
  · have hnorm := clip_gradient_norm g c hc h
    unfold DependencyNetwork.clip_gradient
    rw [if_neg]
    rw [DependencyNetwork.clip_gradient] at hnorm
    rw [hnorm]
    exact lt_irrefl c
  · unfold DependencyNetwork.clip_gradient
    rw [if_neg h, if_neg h]

end NormFacts


namespace DependencyNetwork

section BwdInvariant

variable {n d : ℕ} (wm : Mat d d) (weights : String → Mat d d)
  (vectors : String → Option (Vec d)) (t : DepTree n) (emb : Fin n → Vec d)
  (error_grad rootEmb : Vec d)

theorem seed_foldl_keeps (l : List (Fin n)) (st : PassState n (BwdData n d)) :
    (l.foldl (setRootGradientStep wm vectors t error_grad rootEmb) st).data.wgrads
        = st.data.wgrads ∧
    (l.foldl (setRootGradientStep wm vectors t error_grad rootEmb) st).data.bgrads
        = st.data.bgrads ∧
    (l.foldl (setRootGradientStep wm vectors t error_grad rootEmb) st).data.wkeys
        = st.data.wkeys := by
  induction l generalizing st with
  | nil => exact ⟨rfl, rfl, rfl⟩
  | cons a l ih =>
    rw [List.foldl_cons]
    refine (ih _).imp (fun h => h.trans ?_) (fun h => h.imp (fun h => h.trans ?_)
      (fun h => h.trans ?_)) <;>
      · unfold setRootGradientStep updateWordGrad
        split <;> rfl

theorem seed_foldl_computed (l : List (Fin n)) (st : PassState n (BwdData n d)) (i : Fin n) :
    (l.foldl (setRootGradientStep wm vectors t error_grad rootEmb) st).computed i = true ↔
      (st.computed i = true ∨ (i ∈ l ∧ t.head i = i)) := by
  induction l generalizing st with
  | nil => simp
  | cons a l ih =>
    rw [List.foldl_cons, ih]
    have hstep : (setRootGradientStep wm vectors t error_grad rootEmb st a).computed i = true ↔
        (st.computed i = true ∨ (i = a ∧ t.head i = i)) := by
      unfold setRootGradientStep
      by_cases ha : t.head a = a
      · rw [if_pos ha]
        by_cases hia : i = a
        · subst hia
          simp [Function.update, ha]
        · simp [Function.update, hia]
      · rw [if_neg ha]
        by_cases hia : i = a
        · subst hia
          simp [ha]
        · simp [hia]
    rw [hstep]
    constructor
    · rintro ((h | h) | h)
      · exact Or.inl h
      · exact Or.inr ⟨h.1 ▸ List.mem_cons_self a l, h.2⟩
      · exact Or.inr ⟨List.mem_cons_of_mem a h.1, h.2⟩
    · rintro (h | ⟨hmem, hh⟩)
      · exact Or.inl (Or.inl h)
      · rcases List.mem_cons.1 hmem with h | h
        · exact Or.inl (Or.inr ⟨h, hh⟩)
        · exact Or.inr ⟨h, hh⟩

/-- The seed state: a node is computed iff it is self-headed, and the
`wgrads`/`bgrads` accumulators and key list are untouched. -/
theorem setRootGradient_facts (i : Fin n) :
    ((setRootGradient wm vectors t emb error_grad).computed i = true ↔ t.head i = i) ∧
    (setRootGradient wm vectors t emb error_grad).data.wgrads = (fun _ => 0) ∧
    (setRootGradient wm vectors t emb error_grad).data.bgrads = (fun _ => 0) ∧
    (setRootGradient wm vectors t emb error_grad).data.wkeys = [] := by
  unfold setRootGradient
  obtain ⟨hw, hb, hk⟩ := seed_foldl_keeps wm vectors t error_grad
    ((get_root_embedding t emb).getD 0) (List.finRange n)
    { data := initBwdData n d, computed := fun _ => false }
  refine ⟨?_, hw, hb, hk⟩
  rw [seed_foldl_computed]
  simp [List.mem_finRange]

end BwdInvariant

variable {n d : ℕ}

theorem bwdTouch_grad (wm : Mat d d) (weights : String → Mat d d)
    (vectors : String → Option (Vec d)) (t : DepTree n) (emb : Fin n → Vec d)
    (i : Fin n) (dat : BwdData n d) :
    (bwdTouch wm weights vectors t emb i dat).grad
      = Function.update
          (Function.update dat.grad (t.head i) (clip_gradient (dat.grad (t.head i)) 5)) i
          (hadamard ((weights (t.dep i))ᵀ.mulVec (clip_gradient (dat.grad (t.head i)) 5))
            (tanhGradV (emb i))) := rfl

theorem bwdTouch_wgrads (wm : Mat d d) (weights : String → Mat d d)
    (vectors : String → Option (Vec d)) (t : DepTree n) (emb : Fin n → Vec d)
    (i : Fin n) (dat : BwdData n d) :
    (bwdTouch wm weights vectors t emb i dat).wgrads
      = Function.update dat.wgrads (t.dep i)
          (dat.wgrads (t.dep i)
            + outerProd (clip_gradient (dat.grad (t.head i)) 5) (emb i)) := rfl

theorem bwdTouch_bgrads (wm : Mat d d) (weights : String → Mat d d)
    (vectors : String → Option (Vec d)) (t : DepTree n) (emb : Fin n → Vec d)
    (i : Fin n) (dat : BwdData n d) :
    (bwdTouch wm weights vectors t emb i dat).bgrads
      = Function.update dat.bgrads (t.dep i)
          (dat.bgrads (t.dep i) + clip_gradient (dat.grad (t.head i)) 5) := rfl

theorem bwdTouch_wkeys (wm : Mat d d) (weights : String → Mat d d)
    (vectors : String → Option (Vec d)) (t : DepTree n) (emb : Fin n → Vec d)
    (i : Fin n) (dat : BwdData n d) :
    (bwdTouch wm weights vectors t emb i dat).wkeys
      = if t.dep i ∈ dat.wkeys then dat.wkeys else dat.wkeys ++ [t.dep i] := rfl


theorem bwdInv_passStep (wm : Mat d d) (weights : String → Mat d d)
    (vectors : String → Option (Vec d)) (t : DepTree n) (emb : Fin n → Vec d)
    (r : Fin n) (st : PassState n (BwdData n d)) (j : Fin n)
    (h : BwdInv t r emb st) :
    BwdInv t r emb (passStep (parentReady t) (bwdTouch wm weights vectors t emb) st j) := by
  obtain ⟨h1, h2, h4, h5, h6, h7nd, h7⟩ := h
  unfold passStep
  by_cases hcomp : st.computed j = true
  · rw [if_pos hcomp]; exact ⟨h1, h2, h4, h5, h6, h7nd, h7⟩
  · rw [if_neg hcomp]
    by_cases hready : parentReady t st.computed j = true
    swap
    · rw [if_neg hready]; exact ⟨h1, h2, h4, h5, h6, h7nd, h7⟩
    rw [if_pos hready]
    have hp : st.computed (t.head j) = true := hready
    have hjr : j ≠ r := fun hjr => hcomp (hjr ▸ h1)
    have hjp : j ≠ t.head j := fun hjp => hcomp (hjp ▸ hp)
    set pg := clip_gradient (st.data.grad (t.head j)) 5 with hpg
    set g := hadamard ((weights (t.dep j))ᵀ.mulVec pg) (tanhGradV (emb j)) with hg
    have hgrad' : (bwdTouch wm weights vectors t emb j st.data).grad
        = Function.update (Function.update st.data.grad (t.head j) pg) j g :=
      bwdTouch_grad wm weights vectors t emb j st.data
    -- For nodes already computed, the recorded parent gradient is unchanged.
    have claimA : ∀ i, st.computed i = true → i ≠ r →
        (bwdTouch wm weights vectors t emb j st.data).grad (t.head i)
          = st.data.grad (t.head i) := by
      intro i hci hir
      have hhij : t.head i ≠ j := fun hij => hcomp (hij ▸ h2 i hci hir)
      rw [hgrad', Function.update_noteq hhij]
      by_cases hip : t.head i = t.head j
      · rw [hip, Function.update_same, hpg, ← hip, h4 i hci hir, hip]
      · rw [Function.update_noteq hip]
    have claimB : (bwdTouch wm weights vectors t emb j st.data).grad (t.head j) = pg := by
      rw [hgrad', Function.update_noteq (Ne.symm hjp), Function.update_same]
    refine ⟨?_, ?_, ?_, ?_, ?_, ?_, ?_⟩
    · exact (Function.update_noteq (Ne.symm hjr) _ _).trans h1
    · intro i hci hir
      have hci' : Function.update st.computed j true i = true := hci
      show Function.update st.computed j true (t.head i) = true
      by_cases hij : i = j
      · subst hij
        rw [Function.update_noteq (Ne.symm hjp)]
        exact hp
      · rw [Function.update_noteq hij] at hci'
        have hpar := h2 i hci' hir
        by_cases hhj : t.head i = j
        · rw [hhj, Function.update_same]
        · rw [Function.update_noteq hhj]; exact hpar
    · intro i hci hir
      by_cases hij : i = j
      · subst hij
        show clip_gradient ((bwdTouch wm weights vectors t emb i st.data).grad (t.head i)) 5
          = (bwdTouch wm weights vectors t emb i st.data).grad (t.head i)
        rw [claimB, hpg]
        exact clip_gradient_idem _ 5 (by norm_num)
      · have hci' : Function.update st.computed j true i = true := hci
        rw [Function.update_noteq hij] at hci'
        show clip_gradient ((bwdTouch wm weights vectors t emb j st.data).grad (t.head i)) 5
          = (bwdTouch wm weights vectors t emb j st.data).grad (t.head i)
        rw [claimA i hci' hir]
        exact h4 i hci' hir
    · intro dep
      show (bwdTouch wm weights vectors t emb j st.data).wgrads dep
        = ∑ i ∈ Finset.univ.filter
            (fun i => Function.update st.computed j true i = true ∧ ¬i = r ∧ t.dep i = dep),
          outerProd ((bwdTouch wm weights vectors t emb j st.data).grad (t.head i)) (emb i)
      have hwg : (bwdTouch wm weights vectors t emb j st.data).wgrads dep
          = Function.update st.data.wgrads (t.dep j)
              (st.data.wgrads (t.dep j) + outerProd pg (emb j)) dep := by
        rw [bwdTouch_wgrads]
      have hjS : j ∉ Finset.univ.filter
          (fun i => st.computed i = true ∧ ¬i = r ∧ t.dep i = dep) := by
        simp [hcomp]
      have hS : Finset.univ.filter
            (fun i => Function.update st.computed j true i = true ∧ ¬i = r ∧ t.dep i = dep)
          = if t.dep j = dep then
              insert j (Finset.univ.filter
                (fun i => st.computed i = true ∧ ¬i = r ∧ t.dep i = dep))
            else Finset.univ.filter
              (fun i => st.computed i = true ∧ ¬i = r ∧ t.dep i = dep) := by
        ext i
        by_cases hij : i = j
        · subst hij
          by_cases hdep : t.dep i = dep
          · simp [Function.update_same, hdep, hjr]
          · simp [Function.update_same, hdep]
        · by_cases hdep : t.dep j = dep
          · simp [Function.update_noteq hij, hdep, hij]
          · simp [Function.update_noteq hij, hdep, hij]
      rw [hwg, hS]
      by_cases hdep : t.dep j = dep
      · subst hdep
        rw [Function.update_same, if_pos rfl, Finset.sum_insert hjS, claimB]
        have hsum : ∑ i ∈ Finset.univ.filter
              (fun i => st.computed i = true ∧ ¬i = r ∧ t.dep i = t.dep j),
            outerProd ((bwdTouch wm weights vectors t emb j st.data).grad (t.head i)) (emb i)
          = ∑ i ∈ Finset.univ.filter
              (fun i => st.computed i = true ∧ ¬i = r ∧ t.dep i = t.dep j),
            outerProd (st.data.grad (t.head i)) (emb i) := by
          refine Finset.sum_congr rfl fun i hi => ?_
          obtain ⟨hci, hir, _⟩ := (Finset.mem_filter.1 hi).2
          rw [claimA i hci hir]
        rw [hsum, h5 (t.dep j)]
        exact add_comm _ _
      · rw [Function.update_noteq (fun hh => hdep hh.symm), if_neg hdep, h5 dep]
        refine Finset.sum_congr rfl fun i hi => ?_
        obtain ⟨hci, hir, _⟩ := (Finset.mem_filter.1 hi).2
        rw [claimA i hci hir]
    · intro dep
      show (bwdTouch wm weights vectors t emb j st.data).bgrads dep
        = ∑ i ∈ Finset.univ.filter
            (fun i => Function.update st.computed j true i = true ∧ ¬i = r ∧ t.dep i = dep),
          (bwdTouch wm weights vectors t emb j st.data).grad (t.head i)
      have hbg : (bwdTouch wm weights vectors t emb j st.data).bgrads dep
          = Function.update st.data.bgrads (t.dep j)
              (st.data.bgrads (t.dep j) + pg) dep := by
        rw [bwdTouch_bgrads]
      have hjS : j ∉ Finset.univ.filter
          (fun i => st.computed i = true ∧ ¬i = r ∧ t.dep i = dep) := by
        simp [hcomp]
      have hS : Finset.univ.filter
            (fun i => Function.update st.computed j true i = true ∧ ¬i = r ∧ t.dep i = dep)
          = if t.dep j = dep then
              insert j (Finset.univ.filter
                (fun i => st.computed i = true ∧ ¬i = r ∧ t.dep i = dep))
            else Finset.univ.filter
              (fun i => st.computed i = true ∧ ¬i = r ∧ t.dep i = dep) := by
        ext i
        by_cases hij : i = j
        · subst hij
          by_cases hdep : t.dep i = dep
          · simp [Function.update_same, hdep, hjr]
          · simp [Function.update_same, hdep]
        · by_cases hdep : t.dep j = dep
          · simp [Function.update_noteq hij, hdep, hij]
          · simp [Function.update_noteq hij, hdep, hij]
      rw [hbg, hS]
      by_cases hdep : t.dep j = dep
      · subst hdep
        rw [Function.update_same, if_pos rfl, Finset.sum_insert hjS, claimB]
        have hsum : ∑ i ∈ Finset.univ.filter
              (fun i => st.computed i = true ∧ ¬i = r ∧ t.dep i = t.dep j),
            (bwdTouch wm weights vectors t emb j st.data).grad (t.head i)
          = ∑ i ∈ Finset.univ.filter
              (fun i => st.computed i = true ∧ ¬i = r ∧ t.dep i = t.dep j),
            st.data.grad (t.head i) := by
          refine Finset.sum_congr rfl fun i hi => ?_
          obtain ⟨hci, hir, _⟩ := (Finset.mem_filter.1 hi).2
          rw [claimA i hci hir]
        rw [hsum, h6 (t.dep j)]
        exact add_comm _ _
      · rw [Function.update_noteq (fun hh => hdep hh.symm), if_neg hdep, h6 dep]
        refine Finset.sum_congr rfl fun i hi => ?_
        obtain ⟨hci, hir, _⟩ := (Finset.mem_filter.1 hi).2
        rw [claimA i hci hir]
    · show ((bwdTouch wm weights vectors t emb j st.data).wkeys).Nodup
      rw [bwdTouch_wkeys]
      split
      · exact h7nd
      · next hnotin =>
        simp only [List.nodup_append, List.nodup_cons, List.not_mem_nil, not_false_iff,
          List.nodup_nil, and_true, true_and]
        refine ⟨h7nd, ?_⟩
        intro a ha hb
        simp only [List.mem_singleton] at hb
        exact hnotin (hb ▸ ha)
    · intro dep
      show dep ∈ (bwdTouch wm weights vectors t emb j st.data).wkeys ↔
        ∃ i, Function.update st.computed j true i = true ∧ ¬i = r ∧ t.dep i = dep
      rw [bwdTouch_wkeys]
      constructor
      · intro hmem
        have hmem' : dep ∈ st.data.wkeys ∨ dep = t.dep j := by
          by_cases hin : t.dep j ∈ st.data.wkeys
          · rw [if_pos hin] at hmem; exact Or.inl hmem
          · rw [if_neg hin] at hmem
            rcases List.mem_append.1 hmem with hmm | hmm
            · exact Or.inl hmm
            · exact Or.inr (List.mem_singleton.1 hmm)
        rcases hmem' with hmm | hmm
        · obtain ⟨i, hci, hir, hdi⟩ := (h7 dep).1 hmm
          refine ⟨i, ?_, hir, hdi⟩
          by_cases hij : i = j
          · subst hij; simp [Function.update_same]
          · rw [Function.update_noteq hij]; exact hci
        · exact ⟨j, by simp [Function.update_same], hjr, hmm.symm⟩
      · rintro ⟨i, hci, hir, hdi⟩
        by_cases hij : i = j
        · subst hij
          by_cases hin : t.dep i ∈ st.data.wkeys
          · rw [hdi] at hin
            rw [if_pos (hdi ▸ hin)]
            exact hin
          · rw [if_neg hin]
            exact List.mem_append.2 (Or.inr (List.mem_singleton.2 hdi.symm))
        · rw [Function.update_noteq hij] at hci
          have hmm : dep ∈ st.data.wkeys := (h7 dep).2 ⟨i, hci, hir, hdi⟩
          split
          · exact hmm
          · exact List.mem_append.2 (Or.inl hmm)

theorem bwdInv_seed (wm : Mat d d) (vectors : String → Option (Vec d))
    (t : DepTree n) (emb : Fin n → Vec d) (error_grad : Vec d) (r : Fin n)
    (hroot : t.head r = r) (huniq : ∀ i, t.head i = i → i = r) :
    BwdInv t r emb (setRootGradient wm vectors t emb error_grad) := by
  have hfacts := fun i => setRootGradient_facts wm vectors t emb error_grad i
  have hcomp : ∀ i, (setRootGradient wm vectors t emb error_grad).computed i = true ↔ i = r := by
    intro i
    rw [(hfacts i).1]
    exact ⟨fun h => huniq i h, fun h => h ▸ hroot⟩
  have hw := (hfacts r).2.1
  have hb := (hfacts r).2.2.1
  have hk := (hfacts r).2.2.2
  refine ⟨(hcomp r).2 rfl, ?_, ?_, ?_, ?_, ?_, ?_⟩
  · intro i hci hir
    exact absurd ((hcomp i).1 hci) hir
  · intro i hci hir
    exact absurd ((hcomp i).1 hci) hir
  · intro dep
    rw [hw]
    rw [Finset.filter_eq_empty_iff.2 (by
      rintro i _ ⟨hci, hir, _⟩
      exact hir ((hcomp i).1 hci))]
    simp
  · intro dep
    rw [hb]
    rw [Finset.filter_eq_empty_iff.2 (by
      rintro i _ ⟨hci, hir, _⟩
      exact hir ((hcomp i).1 hci))]
    simp
  · rw [hk]; exact List.nodup_nil
  · intro dep
    rw [hk]
    simp only [List.not_mem_nil, false_iff]
    rintro ⟨i, hci, hir, _⟩
    exact hir ((hcomp i).1 hci)

/-- The whole backward traversal maintains the invariant. -/
theorem bwdInv_final (wm : Mat d d) (weights : String → Mat d d)
    (vectors : String → Option (Vec d)) (t : DepTree n) (emb : Fin n → Vec d)
    (error_grad : Vec d) (fuel : ℕ) (r : Fin n)
    (hroot : t.head r = r) (huniq : ∀ i, t.head i = i → i = r) :
    BwdInv t r emb (bwdFinal wm weights vectors t emb error_grad fuel) := by
  unfold bwdFinal compute_gradients
  exact runPasses_inv _ (fun st j h => bwdInv_passStep wm weights vectors t emb r st j h)
    fuel _ (bwdInv_seed wm vectors t emb error_grad r hroot huniq)

/-- Evaluating a left fold of keyed updates over a duplicate-free key list. -/
theorem foldl_update_of_nodup {β : Type} (l : List String) (hl : l.Nodup)
    (gf : String → β → β) (m0 : String → β) (k : String) :
    (l.foldl (fun m key => Function.update m key (gf key (m key))) m0) k
      = if k ∈ l then gf k (m0 k) else m0 k := by
  induction l generalizing m0 with
  | nil => simp
  | cons a l ih =>
    rw [List.foldl_cons]
    have hnd := List.nodup_cons.1 hl
    rw [ih hnd.2]
    by_cases hk : k = a
    · subst hk
      rw [if_neg hnd.1, if_pos (List.mem_cons_self k l), Function.update_same]
    · by_cases hkl : k ∈ l
      · rw [if_pos hkl, if_pos (List.mem_cons_of_mem _ hkl), Function.update_noteq hk]
      · rw [if_neg hkl, if_neg (by simp [hk, hkl]), Function.update_noteq hk]

end DependencyNetwork


/-- C3: for the DependencyNetwork on a well-formed tree, for every dependency
label `dep` that appears on at least one non-root node, `backward_pass`
updates `weights[dep]` (and `biases[dep]`) by exactly the learning rate times
the sum of the per-occurrence gradient contributions accumulated for `dep`
(one outer product `parent.gradient ⊗ node.embedding`, resp. one copy of
`parent.gradient`, per node labeled `dep`), divided by exactly the number of
tree nodes whose dependency label is `dep` — gradients are role-averaged,
not summed. -/
theorem C3_role_averaged_updates {n d : ℕ} (t : DepTree n) (r : Fin n) (D : ℕ)
    (wm : Mat d d) (weights : String → Mat d d) (biases : String → Vec d)
    (vectors : String → Option (Vec d)) (emb : Fin n → Vec d)
    (error_grad : Vec d) (rate : ℝ) (dep : String)
    (hroot : t.head r = r) (huniq : ∀ i, t.head i = i → i = r)
    (hreach : ∀ i, ∃ k, k < D ∧ t.head^[k] i = r)
    (hocc : ∃ i, ¬i = r ∧ t.dep i = dep) :
    (DependencyNetwork.backward_pass wm weights biases vectors t emb error_grad rate D).1 dep
      = weights dep - (rate / (DependencyNetwork.depcount t dep : ℝ)) •
          ∑ i ∈ Finset.univ.filter (fun i => ¬i = r ∧ t.dep i = dep),
            outerProd ((DependencyNetwork.bwdFinal wm weights vectors t emb
                error_grad D).data.grad (t.head i)) (emb i) ∧
    (DependencyNetwork.backward_pass wm weights biases vectors t emb error_grad rate D).2.1 dep
      = biases dep - (rate / (DependencyNetwork.depcount t dep : ℝ)) •
          ∑ i ∈ Finset.univ.filter (fun i => ¬i = r ∧ t.dep i = dep),
            (DependencyNetwork.bwdFinal wm weights vectors t emb
              error_grad D).data.grad (t.head i) := by
  obtain ⟨h1, h2, h4, h5, h6, h7nd, h7⟩ :=
    DependencyNetwork.bwdInv_final wm weights vectors t emb error_grad D r hroot huniq
  have hall : ∀ i, (DependencyNetwork.bwdFinal wm weights vectors t emb
      error_grad D).computed i = true := by
    have hseedr : (DependencyNetwork.setRootGradient wm vectors t emb
        error_grad).computed r = true := by
      rw [(DependencyNetwork.setRootGradient_facts wm vectors t emb error_grad r).1]
      exact hroot
    exact tree_backward_all_computed t r D hroot hreach _ D le_rfl _ hseedr
  obtain ⟨i0, hi0r, hi0dep⟩ := hocc
  have hmem : dep ∈ (DependencyNetwork.bwdFinal wm weights vectors t emb
      error_grad D).data.wkeys :=
    (h7 dep).2 ⟨i0, hall i0, hi0r, hi0dep⟩
  have hfilt : ∀ st : PassState n (DependencyNetwork.BwdData n d),
      (∀ i, st.computed i = true) →
      Finset.univ.filter (fun i => st.computed i = true ∧ ¬i = r ∧ t.dep i = dep)
        = Finset.univ.filter (fun i => ¬i = r ∧ t.dep i = dep) := by
    intro st hst
    refine Finset.filter_congr fun i _ => ?_
    simp [hst i]
  constructor
  · have hval : (DependencyNetwork.backward_pass wm weights biases vectors t emb
          error_grad rate D).1 dep
        = if dep ∈ (DependencyNetwork.bwdFinal wm weights vectors t emb
              error_grad D).data.wkeys then
            weights dep - (rate / (DependencyNetwork.depcount t dep : ℝ)) •
              (DependencyNetwork.bwdFinal wm weights vectors t emb
                error_grad D).data.wgrads dep
          else weights dep :=
      DependencyNetwork.foldl_update_of_nodup _ h7nd
        (fun key v => v - (rate / (DependencyNetwork.depcount t key : ℝ)) •
          (DependencyNetwork.bwdFinal wm weights vectors t emb
            error_grad D).data.wgrads key) weights dep
    rw [hval, if_pos hmem, h5 dep, hfilt _ hall]
  · have hval : (DependencyNetwork.backward_pass wm weights biases vectors t emb
          error_grad rate D).2.1 dep
        = if dep ∈ (DependencyNetwork.bwdFinal wm weights vectors t emb
              error_grad D).data.wkeys then
            biases dep - (rate / (DependencyNetwork.depcount t dep : ℝ)) •
              (DependencyNetwork.bwdFinal wm weights vectors t emb
                error_grad D).data.bgrads dep
          else biases dep :=
      DependencyNetwork.foldl_update_of_nodup _ h7nd
        (fun key v => v - (rate / (DependencyNetwork.depcount t key : ℝ)) •
          (DependencyNetwork.bwdFinal wm weights vectors t emb
            error_grad D).data.bgrads key) biases dep
    rw [hval, if_pos hmem, h6 dep, hfilt _ hall]

/-- C3, witness: the hypotheses are satisfied by the concrete two-node tree
with `dep = "nsubj"` occurring on the single non-root node, so the
role-averaging statement applies there. -/
theorem C3_witness :
    (c1Tree.head 1 = 1) ∧ (∀ i, c1Tree.head i = i → i = 1) ∧
    (∀ i, ∃ k, k < 2 ∧ c1Tree.head^[k] i = 1) ∧
    (∃ i : Fin 2, ¬i = 1 ∧ c1Tree.dep i = "nsubj") ∧
    ((DependencyNetwork.backward_pass 1 (fun _ => 1) (fun _ => 0)
        (c1Vectors (fun _ => 1) (fun _ => 0)) c1Tree (fun _ => 0) (fun _ => 1) 1 2).1 "nsubj"
      = (fun _ => 1 : String → Mat 4 4) "nsubj"
        - ((1 : ℝ) / (DependencyNetwork.depcount c1Tree "nsubj" : ℝ)) •
          ∑ i ∈ Finset.univ.filter (fun i : Fin 2 => ¬i = 1 ∧ c1Tree.dep i = "nsubj"),
            outerProd ((DependencyNetwork.bwdFinal 1 (fun _ => 1)
                (c1Vectors (fun _ => 1) (fun _ => 0)) c1Tree (fun _ => 0)
                (fun _ => 1) 2).data.grad (c1Tree.head i)) ((fun _ => 0 : Fin 2 → Vec 4) i) ∧
      (DependencyNetwork.backward_pass 1 (fun _ => 1) (fun _ => 0)
        (c1Vectors (fun _ => 1) (fun _ => 0)) c1Tree (fun _ => 0) (fun _ => 1) 1 2).2.1 "nsubj"
      = (fun _ => 0 : String → Vec 4) "nsubj"
        - ((1 : ℝ) / (DependencyNetwork.depcount c1Tree "nsubj" : ℝ)) •
          ∑ i ∈ Finset.univ.filter (fun i : Fin 2 => ¬i = 1 ∧ c1Tree.dep i = "nsubj"),
            (DependencyNetwork.bwdFinal 1 (fun _ => 1)
              (c1Vectors (fun _ => 1) (fun _ => 0)) c1Tree (fun _ => 0)
              (fun _ => 1) 2).data.grad (c1Tree.head i)) := by
  have hroot : c1Tree.head 1 = 1 := rfl
  have huniq : ∀ i, c1Tree.head i = i → i = 1 := by decide
  have hreach : ∀ i, ∃ k, k < 2 ∧ c1Tree.head^[k] i = 1 := by
    intro i
    fin_cases i
    · exact ⟨1, by decide, by decide⟩
    · exact ⟨0, by decide, rfl⟩
  have hocc : ∃ i : Fin 2, ¬i = 1 ∧ c1Tree.dep i = "nsubj" := ⟨0, by decide, rfl⟩
  exact ⟨hroot, huniq, hreach, hocc,
    C3_role_averaged_updates c1Tree 1 2 1 (fun _ => 1) (fun _ => 0)
      (c1Vectors (fun _ => 1) (fun _ => 0)) (fun _ => 0) (fun _ => 1) 1 "nsubj"
      hroot huniq hreach hocc⟩

/-- C4: on every input tree with exactly one self-headed root `r` from which
every node is reachable by head pointers in fewer than `D` (the tree depth)
steps, the repeated-full-pass `compute_embeddings` of both tree models
terminates with every node computed within `D` full passes; every leaf is
computed in pass 1; and any full pass that starts with an uncomputed node
computes at least one previously-uncomputed node. -/
theorem C4_compute_embeddings_terminates {n d : ℕ} (t : DepTree n) (r : Fin n) (D : ℕ)
    (wm : Mat d d) (weights : String → Mat d d) (biases : String → Vec d)
    (vectors : String → Option (Vec d)) (P : TreeLSTM.Params d)
    (hroot : t.head r = r) (huniq : ∀ i, t.head i = i → i = r)
    (hreach : ∀ i, ∃ k, k < D ∧ t.head^[k] i = r) :
    (∀ i, (DependencyNetwork.compute_embeddings wm weights biases vectors t D
        (DependencyNetwork.initFwdState n d)).computed i = true) ∧
    (∀ i, (TreeLSTM.compute_embeddings P t D
        (TreeLSTM.initFwdState n d)).computed i = true) ∧
    (∀ i, t.children i = [] →
      (fullPass (childrenReady t) (DependencyNetwork.fwdTouch wm weights biases vectors t)
        (DependencyNetwork.initFwdState n d)).computed i = true) ∧
    (∀ i, t.children i = [] →
      (fullPass (childrenReady t) (TreeLSTM.fwdTouch P t)
        (TreeLSTM.initFwdState n d)).computed i = true) ∧
    (∀ st : PassState n (Fin n → Vec d), (∃ i, st.computed i = false) →
      ∃ i, st.computed i = false ∧
        (fullPass (childrenReady t) (DependencyNetwork.fwdTouch wm weights biases vectors t)
          st).computed i = true) ∧
    (∀ st : PassState n (Fin n → TreeLSTM.NodeData n d), (∃ i, st.computed i = false) →
      ∃ i, st.computed i = false ∧
        (fullPass (childrenReady t) (TreeLSTM.fwdTouch P t) st).computed i = true) := by
  refine ⟨?_, ?_, ?_, ?_, ?_, ?_⟩
  · exact tree_forward_all_computed t r D hroot hreach _ D le_rfl _
  · exact tree_forward_all_computed t r D hroot hreach _ D le_rfl _
  · exact fun i h => tree_forward_leaf_pass1 t _ _ i h
  · exact fun i h => tree_forward_leaf_pass1 t _ _ i h
  · exact fun st hne => tree_forward_progress t r D hroot hreach _ st hne
  · exact fun st hne => tree_forward_progress t r D hroot hreach _ st hne

/-- C4, witness: the hypotheses hold for the concrete two-node tree (root at
index 1, depth 2), so the traversal statement applies to it. -/
theorem C4_witness :
    (c1Tree.head 1 = 1) ∧ (∀ i, c1Tree.head i = i → i = 1) ∧
    (∀ i, ∃ k, k < 2 ∧ c1Tree.head^[k] i = 1) ∧
    ((∀ i, (DependencyNetwork.compute_embeddings 1 (fun _ => 1) (fun _ => 0)
        (fun _ => none) c1Tree 2 (DependencyNetwork.initFwdState 2 4)).computed i = true) ∧
      (∀ i, (TreeLSTM.compute_embeddings
          ⟨0, 0, 0, 0, 0, 0, 0, 0, 0, 0, 0, 0, fun _ => none⟩ c1Tree 2
          (TreeLSTM.initFwdState 2 4)).computed i = true) ∧
      (∀ i, c1Tree.children i = [] →
        (fullPass (childrenReady c1Tree)
          (DependencyNetwork.fwdTouch 1 (fun _ => 1) (fun _ => 0) ((fun _ => none) : String → Option (Vec 4)) c1Tree)
          (DependencyNetwork.initFwdState 2 4)).computed i = true) ∧
      (∀ i, c1Tree.children i = [] →
        (fullPass (childrenReady c1Tree)
          (TreeLSTM.fwdTouch ⟨0, 0, 0, 0, 0, 0, 0, 0, 0, 0, 0, 0, fun _ => none⟩ c1Tree)
          (TreeLSTM.initFwdState 2 4)).computed i = true) ∧
      (∀ st : PassState 2 (Fin 2 → Vec 4), (∃ i, st.computed i = false) →
        ∃ i, st.computed i = false ∧
          (fullPass (childrenReady c1Tree)
            (DependencyNetwork.fwdTouch 1 (fun _ => 1) (fun _ => 0) ((fun _ => none) : String → Option (Vec 4)) c1Tree)
            st).computed i = true) ∧
      (∀ st : PassState 2 (Fin 2 → TreeLSTM.NodeData 2 4), (∃ i, st.computed i = false) →
        ∃ i, st.computed i = false ∧
          (fullPass (childrenReady c1Tree)
            (TreeLSTM.fwdTouch ⟨0, 0, 0, 0, 0, 0, 0, 0, 0, 0, 0, 0, fun _ => none⟩ c1Tree)
            st).computed i = true)) := by
  have hroot : c1Tree.head 1 = 1 := rfl
  have huniq : ∀ i, c1Tree.head i = i → i = 1 := by decide
  have hreach : ∀ i, ∃ k, k < 2 ∧ c1Tree.head^[k] i = 1 := by
    intro i
    fin_cases i
    · exact ⟨1, by decide, by decide⟩
    · exact ⟨0, by decide, rfl⟩
  exact ⟨hroot, huniq, hreach,
    C4_compute_embeddings_terminates c1Tree 1 2 1 (fun _ => 1) (fun _ => 0)
      (fun _ => none) ⟨0, 0, 0, 0, 0, 0, 0, 0, 0, 0, 0, 0, fun _ => none⟩
      hroot huniq hreach⟩


theorem lstm_bwd_foldl_dyW {d : ℕ} (P : LSTM.Params d) (batch : List (List String))
    (l : List ℕ) (acc : LSTM.BwdAcc d batch.length) :
    (l.foldl (LSTM.bwdStep P batch) acc).dyW = acc.dyW := by
  induction l generalizing acc with
  | nil => rfl
  | cons a l ih => rw [List.foldl_cons, ih]; rfl

/-- C2, code bug: `LSTM.backward_pass` never changes `yW`.  The gradient
accumulator `dyW` is computed at lstm.py:100 and immediately overwritten with
zeros at lstm.py:105, and the reverse-time loop never assigns it, so the `yW`
update at lstm.py:202 subtracts `rate * 0 / bsize = 0` on every call — for
every batch and every (nonzero) error gradient, contradicting §8's
requirement that every entry of every tied weight matrix changes after one
`backward_pass` with a nonzero learning rate. -/
theorem C2_lstm_yW_never_updated {d : ℕ} (P : LSTM.Params d)
    (batch : List (List String)) (error_grad : Mat d batch.length) (rate : ℝ) :
    (LSTM.backward_pass P batch error_grad rate).yW = P.yW := by
  show P.yW - rate • (((batch.length : ℝ))⁻¹ •
      (((List.range (seqlenOf batch)).reverse).foldl (LSTM.bwdStep P batch)
        { dyW := 0, diW := 0, doW := 0, dfW := 0, duW := 0,
          diU := 0, doU := 0, dfU := 0, duU := 0,
          i_bias_grad := 0, f_bias_grad := 0, o_bias_grad := 0, u_bias_grad := 0,
          xgrads := fun _ => 0,
          h_grad := P.yWᵀ * hadamardM error_grad (tanhGradM (LSTM.ysOf P batch)),
          s_grad := 0 }).dyW)
    = P.yW
  rw [lstm_bwd_foldl_dyW]
  simp

section LowerFacts

theorem char_ofNat_toNat_valid (m : ℕ) (h : m.isValidChar) : (Char.ofNat m).toNat = m := by
  unfold Char.ofNat
  rw [dif_pos h]
  rfl

/-- Lowercasing a character never yields an uppercase letter, in particular
never `'A'`. -/
theorem char_toLower_ne_A (c : Char) : c.toLower ≠ 'A' := by
  have hdef : c.toLower
      = if c.toNat ≥ 65 ∧ c.toNat ≤ 90 then Char.ofNat (c.toNat + 32) else c := rfl
  rw [hdef]
  by_cases h : c.toNat ≥ 65 ∧ c.toNat ≤ 90
  · rw [if_pos h]
    intro heq
    have hv : (c.toNat + 32).isValidChar := Or.inl (by omega)
    have htn := congrArg Char.toNat heq
    rw [char_ofNat_toNat_valid _ hv] at htn
    have h65 : ('A').toNat = 65 := rfl
    rw [h65] at htn
    omega
  · rw [if_neg h]
    intro heq
    apply h
    rw [heq]
    exact ⟨by decide, by decide⟩

/-- Python's `lower()` never produces the (uppercase) `PAD` sentinel, so the
chain LSTM's lowercased lookups can never read the `PAD` key. -/
theorem pyLower_ne_PAD (s : String) : pyLower s ≠ "PAD" := by
  intro h
  have hPAD : ("PAD").data = ['P', 'A', 'D'] := rfl
  have hdata : s.data.map Char.toLower = ['P', 'A', 'D'] := by
    have := congrArg String.data h
    rw [hPAD] at this
    exact this
  obtain ⟨c0, rest, hs⟩ : ∃ c0 rest, s.data = c0 :: rest := by
    cases hsd : s.data with
    | nil => rw [hsd] at hdata; simp at hdata
    | cons a l => exact ⟨a, l, rfl⟩
  rw [hs] at hdata
  simp only [List.map_cons, List.cons.injEq] at hdata
  obtain ⟨c1, rest1, hr⟩ : ∃ c1 rest1, rest = c1 :: rest1 := by
    cases hsd : rest with
    | nil => rw [hsd] at hdata; simp at hdata
    | cons a l => exact ⟨a, l, rfl⟩
  rw [hr] at hdata
  simp only [List.map_cons, List.cons.injEq] at hdata
  exact char_toLower_ne_A c1 hdata.2.1

end LowerFacts

section PadInvariance

variable {d b : ℕ}

theorem rnn_to_array_congr (v1 v2 : String → Option (Vec d))
    (hv : ∀ w, ¬w = "PAD" → v1 w = v2 w) (words : Fin b → String) :
    RecurrentNetwork.to_array v1 words = RecurrentNetwork.to_array v2 words := by
  ext i idx
  unfold RecurrentNetwork.to_array
  simp only [Matrix.of_apply]
  by_cases hw : words idx = "PAD"
  · rw [if_pos hw, if_pos hw]
  · rw [if_neg hw, if_neg hw, hv _ hw]

theorem lstm_to_array_congr (v1 v2 : String → Option (Vec d))
    (hv : ∀ w, ¬w = "PAD" → v1 w = v2 w) (words : Fin b → String) :
    LSTM.to_array v1 words = LSTM.to_array v2 words := by
  ext i idx
  unfold LSTM.to_array
  simp only [Matrix.of_apply]
  by_cases hw : words idx = "PAD"
  · rw [if_pos hw, if_pos hw]
  · rw [if_neg hw, if_neg hw, hv _ (pyLower_ne_PAD _)]

theorem rnn_H_congr (P : RecurrentNetwork.Params d) (v2 : String → Option (Vec d))
    (batch : List (List String))
    (harr : ∀ k : ℕ, RecurrentNetwork.to_array v2 (wordAt batch k)
      = RecurrentNetwork.to_array P.vectors (wordAt batch k)) (k : ℕ) :
    RecurrentNetwork.H { P with vectors := v2 } batch k
      = RecurrentNetwork.H P batch k := by
  induction k with
  | zero => rfl
  | succ k ih =>
    show tanhM (addCol (P.Whh * RecurrentNetwork.H { P with vectors := v2 } batch k
        + RecurrentNetwork.to_array v2 (wordAt batch k)) P.bh)
      = tanhM (addCol (P.Whh * RecurrentNetwork.H P batch k
        + RecurrentNetwork.to_array P.vectors (wordAt batch k)) P.bh)
    rw [ih, harr k]

theorem lstm_hc_congr (Q : LSTM.Params d) (q2 : String → Option (Vec d))
    (hq : ∀ w, ¬w = "PAD" → q2 w = Q.vectors w) (batch : List (List String)) (k : ℕ) :
    LSTM.hc { Q with vectors := q2 } batch k = LSTM.hc Q batch k := by
  induction k with
  | zero => rfl
  | succ k ih =>
    have hxs : LSTM.xsAt { Q with vectors := q2 } batch k = LSTM.xsAt Q batch k :=
      lstm_to_array_congr q2 Q.vectors hq (wordAt batch k)
    show (let xs := LSTM.xsAt { Q with vectors := q2 } batch k
          let Hk := (LSTM.hc { Q with vectors := q2 } batch k).1
          let Ck := (LSTM.hc { Q with vectors := q2 } batch k).2
          let i_g := sigmoidM (addCol (Q.iW * xs + Q.iU * Hk) Q.i_bias)
          let o_g := sigmoidM (addCol (Q.oW * xs + Q.oU * Hk) Q.o_bias)
          let f_g := sigmoidM (addCol (Q.fW * xs + Q.fU * Hk) Q.f_bias)
          let u := tanhM (addCol (Q.uW * xs + Q.uU * Hk) Q.u_bias)
          let C' := hadamardM i_g u + hadamardM f_g Ck
          (hadamardM o_g (tanhM C'), C'))
      = (let xs := LSTM.xsAt Q batch k
          let Hk := (LSTM.hc Q batch k).1
          let Ck := (LSTM.hc Q batch k).2
          let i_g := sigmoidM (addCol (Q.iW * xs + Q.iU * Hk) Q.i_bias)
          let o_g := sigmoidM (addCol (Q.oW * xs + Q.oU * Hk) Q.o_bias)
          let f_g := sigmoidM (addCol (Q.fW * xs + Q.fU * Hk) Q.f_bias)
          let u := tanhM (addCol (Q.uW * xs + Q.uU * Hk) Q.u_bias)
          let C' := hadamardM i_g u + hadamardM f_g Ck
          (hadamardM o_g (tanhM C'), C'))
    rw [hxs, ih]

/-- C5: for both chain models, two forward passes over the same tokenized
batch that differ only in the value stored in the embedding table under the
`"PAD"` sentinel key produce identical root embeddings (`ys`): `to_array`
skips PAD positions (and the LSTM reads only lowercased keys, which are
never `"PAD"`), so the PAD embedding is never read. -/
theorem C5_pad_invariance {d : ℕ} (P : RecurrentNetwork.Params d) (Q : LSTM.Params d)
    (v2 q2 : String → Option (Vec d)) (batch : List (List String))
    (hv : ∀ w, ¬w = "PAD" → v2 w = P.vectors w)
    (hq : ∀ w, ¬w = "PAD" → q2 w = Q.vectors w) :
    RecurrentNetwork.get_root_embedding
        (RecurrentNetwork.forward_pass { P with vectors := v2 } batch)
      = RecurrentNetwork.get_root_embedding (RecurrentNetwork.forward_pass P batch) ∧
    LSTM.get_root_embedding (LSTM.forward_pass { Q with vectors := q2 } batch)
      = LSTM.get_root_embedding (LSTM.forward_pass Q batch) := by
  constructor
  · show RecurrentNetwork.ysOf { P with vectors := v2 } batch
      = RecurrentNetwork.ysOf P batch
    unfold RecurrentNetwork.ysOf
    rw [rnn_H_congr P v2 batch (fun k => rnn_to_array_congr v2 P.vectors hv _)]
  · show LSTM.ysOf { Q with vectors := q2 } batch = LSTM.ysOf Q batch
    unfold LSTM.ysOf
    rw [lstm_hc_congr Q q2 hq]

/-- C5, witness: a concrete one-sentence batch with the PAD embedding changed
from absent to a nonzero vector. -/
theorem C5_witness :
    ((∀ w, ¬w = "PAD" →
        (fun u => if u = "PAD" then some (fun _ => (1 : ℝ)) else none) w
          = (({ Whh := 0, Why := 0, bh := 0, byv := 0, vectors := fun _ => none } :
              RecurrentNetwork.Params 1).vectors) w) ∧
      (∀ w, ¬w = "PAD" →
        (fun u => if u = "PAD" then some (fun _ => (1 : ℝ)) else none) w
          = (({ iW := 0, iU := 0, fW := 0, fU := 0, oW := 0, oU := 0, uW := 0, uU := 0,
                yW := 0, i_bias := 0, f_bias := 0, o_bias := 0, u_bias := 0, y_bias := 0,
                vectors := fun _ => none } : LSTM.Params 1).vectors) w)) ∧
    (RecurrentNetwork.get_root_embedding
        (RecurrentNetwork.forward_pass
          { ({ Whh := 0, Why := 0, bh := 0, byv := 0, vectors := fun _ => none } :
              RecurrentNetwork.Params 1) with
            vectors := fun u => if u = "PAD" then some (fun _ => (1 : ℝ)) else none }
          [["a"]])
      = RecurrentNetwork.get_root_embedding
          (RecurrentNetwork.forward_pass
            ({ Whh := 0, Why := 0, bh := 0, byv := 0, vectors := fun _ => none } :
              RecurrentNetwork.Params 1) [["a"]]) ∧
      LSTM.get_root_embedding
        (LSTM.forward_pass
          { ({ iW := 0, iU := 0, fW := 0, fU := 0, oW := 0, oU := 0, uW := 0, uU := 0,
                yW := 0, i_bias := 0, f_bias := 0, o_bias := 0, u_bias := 0, y_bias := 0,
                vectors := fun _ => none } : LSTM.Params 1) with
            vectors := fun u => if u = "PAD" then some (fun _ => (1 : ℝ)) else none }
          [["a"]])
      = LSTM.get_root_embedding
          (LSTM.forward_pass
            ({ iW := 0, iU := 0, fW := 0, fU := 0, oW := 0, oU := 0, uW := 0, uU := 0,
                yW := 0, i_bias := 0, f_bias := 0, o_bias := 0, u_bias := 0, y_bias := 0,
                vectors := fun _ => none } : LSTM.Params 1) [["a"]])) := by
  have hv : ∀ w, ¬w = "PAD" →
      (fun u => if u = "PAD" then some (fun _ => (1 : ℝ)) else none) w
        = (fun _ => none : String → Option (Vec 1)) w := by
    intro w hw
    simp [hw]
  exact ⟨⟨hv, hv⟩, C5_pad_invariance _ _ _ _ [["a"]] hv hv⟩

end PadInvariance

section OovFallback

variable {n d b : ℕ}

/-- Updating a word absent from the table to the zero vector leaves the
effective (defaulted) lookup of every key unchanged. -/
theorem update_oov_getD (vectors : String → Option (Vec d)) (w : String)
    (hw : vectors w = none) (u : String) :
    ((Function.update vectors w (some 0)) u).getD 0 = (vectors u).getD 0 := by
  by_cases hu : u = w
  · subst hu
    rw [Function.update_same, hw]
    rfl
  · rw [Function.update_noteq hu]

theorem rnn_to_array_congr_val (v1 v2 : String → Option (Vec d))
    (hv : ∀ u, (v1 u).getD 0 = (v2 u).getD 0) (words : Fin b → String) :
    RecurrentNetwork.to_array v1 words = RecurrentNetwork.to_array v2 words := by
  ext i idx
  unfold RecurrentNetwork.to_array
  simp only [Matrix.of_apply]
  by_cases hw : words idx = "PAD"
  · rw [if_pos hw, if_pos hw]
  · rw [if_neg hw, if_neg hw]
    have h := congrFun (hv (words idx)) i
    cases h1 : v1 (words idx) with
    | none =>
      cases h2 : v2 (words idx) with
      | none => rfl
      | some u => rw [h1, h2] at h; simpa using h
    | some v =>
      cases h2 : v2 (words idx) with
      | none => rw [h1, h2] at h; simpa using h
      | some u => rw [h1, h2] at h; simpa using h

theorem embed_node_val_congr (wm : Mat d d) (weights : String → Mat d d)
    (biases : String → Vec d) (v1 v2 : String → Option (Vec d)) (t : DepTree n)
    (hv : ∀ u, (v1 u).getD 0 = (v2 u).getD 0) :
    DependencyNetwork.embed_node wm weights biases v1 t
      = DependencyNetwork.embed_node wm weights biases v2 t := by
  funext i emb
  unfold DependencyNetwork.embed_node
  have h := hv (t.text i)
  have hbase : (match v1 (t.text i) with
      | some v => wm.mulVec v
      | none => (0 : Vec d))
      = (match v2 (t.text i) with
      | some v => wm.mulVec v
      | none => (0 : Vec d)) := by
    cases h1 : v1 (t.text i) with
    | none =>
      cases h2 : v2 (t.text i) with
      | none => rfl
      | some u =>
        rw [h1, h2] at h
        simp only [Option.getD_none, Option.getD_some] at h
        simp [← h, Matrix.mulVec_zero]
    | some v =>
      cases h2 : v2 (t.text i) with
      | none =>
        rw [h1, h2] at h
        simp only [Option.getD_none, Option.getD_some] at h
        simp [h, Matrix.mulVec_zero]
      | some u =>
        rw [h1, h2] at h
        simp only [Option.getD_some] at h
        rw [h]
  rw [hbase]

theorem tlstm_update_node_val_congr (P : TreeLSTM.Params d)
    (v2 : String → Option (Vec d)) (t : DepTree n)
    (hv : ∀ u, (v2 u).getD 0 = (P.vectors u).getD 0) :
    TreeLSTM.update_node { P with vectors := v2 } t
      = TreeLSTM.update_node P t := by
  funext i dat
  simp only [TreeLSTM.update_node]
  rw [hv (t.lower i)]

/-- C7: a sentence containing a word absent from the embedding table never
fails: every model's forward pass behaves exactly as if the missing word's
embedding were the zero vector (tree models substitute a zero input vector
for the node, the chain model leaves the input column zero), and the
computation proceeds normally. -/
theorem C7_oov_zero_fallback (t : DepTree n) (wm : Mat d d)
    (weights : String → Mat d d) (biases : String → Vec d)
    (vectors : String → Option (Vec d)) (P : TreeLSTM.Params d)
    (Q : RecurrentNetwork.Params d) (batch : List (List String)) (w : String)
    (hw : vectors w = none) (hpw : P.vectors w = none) (hqw : Q.vectors w = none) :
    DependencyNetwork.forward_pass wm weights biases
        (Function.update vectors w (some 0)) t
      = DependencyNetwork.forward_pass wm weights biases vectors t ∧
    TreeLSTM.forward_pass { P with vectors := Function.update P.vectors w (some 0) } t
      = TreeLSTM.forward_pass P t ∧
    RecurrentNetwork.get_root_embedding (RecurrentNetwork.forward_pass
        { Q with vectors := Function.update Q.vectors w (some 0) } batch)
      = RecurrentNetwork.get_root_embedding (RecurrentNetwork.forward_pass Q batch) := by
  refine ⟨?_, ?_, ?_⟩
  · unfold DependencyNetwork.forward_pass DependencyNetwork.compute_embeddings
    have ht : DependencyNetwork.fwdTouch wm weights biases
        (Function.update vectors w (some 0)) t
        = DependencyNetwork.fwdTouch wm weights biases vectors t := by
      funext i emb
      unfold DependencyNetwork.fwdTouch
      rw [embed_node_val_congr wm weights biases _ vectors t (update_oov_getD vectors w hw)]
    rw [ht]
  · unfold TreeLSTM.forward_pass TreeLSTM.compute_embeddings
    have ht : TreeLSTM.fwdTouch { P with vectors := Function.update P.vectors w (some 0) } t
        = TreeLSTM.fwdTouch P t := by
      funext i dat
      unfold TreeLSTM.fwdTouch
      rw [tlstm_update_node_val_congr P _ t (update_oov_getD P.vectors w hpw)]
    rw [ht]
  · show RecurrentNetwork.ysOf { Q with vectors := Function.update Q.vectors w (some 0) } batch
      = RecurrentNetwork.ysOf Q batch
    unfold RecurrentNetwork.ysOf
    rw [rnn_H_congr Q _ batch (fun k => rnn_to_array_congr_val _ Q.vectors
      (update_oov_getD Q.vectors w hqw) _)]

/-- C7, witness: the fallback statement applies with the concrete word "dog"
absent from concrete (empty) embedding tables. -/
theorem C7_witness :
    ((fun _ => none : String → Option (Vec 4)) "dog" = none) ∧
    (DependencyNetwork.forward_pass 1 (fun _ => 1) (fun _ => 0)
        (Function.update ((fun _ => none) : String → Option (Vec 4)) "dog" (some 0)) c1Tree
      = DependencyNetwork.forward_pass 1 (fun _ => 1) (fun _ => 0) (fun _ => none) c1Tree ∧
    TreeLSTM.forward_pass
        { (⟨0, 0, 0, 0, 0, 0, 0, 0, 0, 0, 0, 0, fun _ => none⟩ : TreeLSTM.Params 4) with
          vectors := Function.update (fun _ => none) "dog" (some 0) } c1Tree
      = TreeLSTM.forward_pass ⟨0, 0, 0, 0, 0, 0, 0, 0, 0, 0, 0, 0, fun _ => none⟩ c1Tree ∧
    RecurrentNetwork.get_root_embedding (RecurrentNetwork.forward_pass
        { ({ Whh := 0, Why := 0, bh := 0, byv := 0, vectors := fun _ => none } :
            RecurrentNetwork.Params 4) with
          vectors := Function.update (fun _ => none) "dog" (some 0) } [["dog"]])
      = RecurrentNetwork.get_root_embedding (RecurrentNetwork.forward_pass
          ({ Whh := 0, Why := 0, bh := 0, byv := 0, vectors := fun _ => none } :
            RecurrentNetwork.Params 4) [["dog"]])) :=
  ⟨rfl, C7_oov_zero_fallback c1Tree 1 (fun _ => 1) (fun _ => 0) (fun _ => none)
    ⟨0, 0, 0, 0, 0, 0, 0, 0, 0, 0, 0, 0, fun _ => none⟩
    { Whh := 0, Why := 0, bh := 0, byv := 0, vectors := fun _ => none }
    [["dog"]] "dog" rfl rfl rfl⟩

end OovFallback

theorem find?_eq_some_of_unique {α : Type} (p : α → Bool) (l : List α) (r : α)
    (hmem : r ∈ l) (hp : p r = true) (huni : ∀ x, p x = true → x = r) :
    l.find? p = some r := by
  induction l with
  | nil => cases hmem
  | cons a l ih =>
    by_cases ha : p a = true
    · rw [List.find?_cons_of_pos _ ha, huni a ha]
    · rw [List.find?_cons_of_neg _ ha]
      rcases List.mem_cons.1 hmem with h | h
      · subst h; exact absurd hp ha
      · exact ih h

/-- C9 (amended): on a well-formed tree, `forward_pass` followed by
`get_root_embedding` returns `some` root-node embedding for both tree models
— a column vector of exactly the configured dimension `d` by construction;
for the chain models the returned array `ys` has shape `dim × bsize` with
`bsize` the number of sentences in the batch, which is `D×1` only for
single-sentence batches. -/
theorem C9_output_shape {n d : ℕ} (t : DepTree n) (r : Fin n)
    (wm : Mat d d) (weights : String → Mat d d) (biases : String → Vec d)
    (vectors : String → Option (Vec d)) (P : TreeLSTM.Params d)
    (Q : RecurrentNetwork.Params d) (L : LSTM.Params d) (batch : List (List String))
    (hroot : t.head r = r) (huniq : ∀ i, t.head i = i → i = r) :
    DependencyNetwork.get_root_embedding t
        (DependencyNetwork.forward_pass wm weights biases vectors t).data
      = some ((DependencyNetwork.forward_pass wm weights biases vectors t).data r) ∧
    TreeLSTM.get_root_embedding t (TreeLSTM.forward_pass P t).data
      = some (((TreeLSTM.forward_pass P t).data r).embedding) ∧
    (RecurrentNetwork.forward_pass Q batch).bsize = batch.length ∧
    (LSTM.forward_pass L batch).bsize = batch.length := by
  have hfind : (List.finRange n).find? (fun i => decide (t.head i = i)) = some r :=
    find?_eq_some_of_unique _ _ r (List.mem_finRange r) (decide_eq_true hroot)
      (fun x hx => huniq x (of_decide_eq_true hx))
  refine ⟨?_, ?_, rfl, rfl⟩
  · unfold DependencyNetwork.get_root_embedding
    rw [hfind]
    rfl
  · unfold TreeLSTM.get_root_embedding
    rw [hfind]
    rfl

/-- C9, counterexample: on the two-sentence batch `[["a"], ["b"]]` the chain
RNN's `forward_pass` stores `bsize = 2`, so `get_root_embedding` returns the
`ys` array of shape `dim × 2` — not a `D×1` vector as the claim states for
every well-formed input of every model variant. -/
theorem C9_counterexample :
    (RecurrentNetwork.forward_pass
      ({ Whh := 0, Why := 0, bh := 0, byv := 0, vectors := fun _ => none } :
        RecurrentNetwork.Params 1) [["a"], ["b"]]).bsize ≠ 1 := by
  show (2 : ℕ) ≠ 1
  decide

/-- C9, witness: the amended shape statement applies to the concrete
two-node tree and a concrete one-sentence batch. -/
theorem C9_witness :
    (c1Tree.head 1 = 1) ∧ (∀ i, c1Tree.head i = i → i = 1) ∧
    (DependencyNetwork.get_root_embedding c1Tree
        (DependencyNetwork.forward_pass 1 (fun _ => 1) (fun _ => 0)
          ((fun _ => none) : String → Option (Vec 4)) c1Tree).data
      = some ((DependencyNetwork.forward_pass 1 (fun _ => 1) (fun _ => 0)
          ((fun _ => none) : String → Option (Vec 4)) c1Tree).data 1) ∧
    TreeLSTM.get_root_embedding c1Tree
        (TreeLSTM.forward_pass (⟨0, 0, 0, 0, 0, 0, 0, 0, 0, 0, 0, 0, fun _ => none⟩ :
          TreeLSTM.Params 4) c1Tree).data
      = some (((TreeLSTM.forward_pass (⟨0, 0, 0, 0, 0, 0, 0, 0, 0, 0, 0, 0, fun _ => none⟩ :
          TreeLSTM.Params 4) c1Tree).data 1).embedding) ∧
    (RecurrentNetwork.forward_pass
        ({ Whh := 0, Why := 0, bh := 0, byv := 0, vectors := fun _ => none } :
          RecurrentNetwork.Params 4) [["a"]]).bsize = [["a"]].length ∧
    (LSTM.forward_pass
        ({ iW := 0, iU := 0, fW := 0, fU := 0, oW := 0, oU := 0, uW := 0, uU := 0,
           yW := 0, i_bias := 0, f_bias := 0, o_bias := 0, u_bias := 0, y_bias := 0,
           vectors := fun _ => none } : LSTM.Params 4) [["a"]]).bsize = [["a"]].length) := by
  have hroot : c1Tree.head 1 = 1 := rfl
  have huniq : ∀ i, c1Tree.head i = i → i = 1 := by decide
  exact ⟨hroot, huniq,
    C9_output_shape c1Tree 1 1 (fun _ => 1) (fun _ => 0) (fun _ => none)
      ⟨0, 0, 0, 0, 0, 0, 0, 0, 0, 0, 0, 0, fun _ => none⟩
      { Whh := 0, Why := 0, bh := 0, byv := 0, vectors := fun _ => none }
      { iW := 0, iU := 0, fW := 0, fU := 0, oW := 0, oU := 0, uW := 0, uU := 0,
        yW := 0, i_bias := 0, f_bias := 0, o_bias := 0, u_bias := 0, y_bias := 0,
        vectors := fun _ => none }
      [["a"]] hroot huniq⟩

/-- The keys of the `wgrads`/`bgrads` defaultdicts only ever come from
dependency labels of actual tree nodes, for any amount of fuel. -/
theorem bwd_wkeys_label_exists {n d : ℕ} (wm : Mat d d) (weights : String → Mat d d)
    (vectors : String → Option (Vec d)) (t : DepTree n) (emb : Fin n → Vec d)
    (error_grad : Vec d) (fuel : ℕ) :
    ∀ dep ∈ (DependencyNetwork.bwdFinal wm weights vectors t emb
        error_grad fuel).data.wkeys, ∃ i, t.dep i = dep := by
  have hseedk : (DependencyNetwork.setRootGradient wm vectors t emb
      error_grad).data.wkeys = [] := by
    unfold DependencyNetwork.setRootGradient
    exact (DependencyNetwork.seed_foldl_keeps wm vectors t error_grad _ _
      { data := DependencyNetwork.initBwdData n d, computed := fun _ => false }).2.2
  unfold DependencyNetwork.bwdFinal DependencyNetwork.compute_gradients
  refine runPasses_inv (fun st : PassState n (DependencyNetwork.BwdData n d) =>
      ∀ dep ∈ st.data.wkeys, ∃ i, t.dep i = dep)
    (fun st j h => ?_) fuel _ (fun dep hdep => ?_)
  · unfold passStep
    split
    · exact h
    · split
      · intro dep hdep
        have hdep' : dep ∈ (DependencyNetwork.bwdTouch wm weights vectors t emb
            j st.data).wkeys := hdep
        rw [DependencyNetwork.bwdTouch_wkeys] at hdep'
        by_cases hin : t.dep j ∈ st.data.wkeys
        · rw [if_pos hin] at hdep'
          exact h dep hdep'
        · rw [if_neg hin] at hdep'
          rcases List.mem_append.1 hdep' with hmm | hmm
          · exact h dep hmm
          · exact ⟨j, (List.mem_singleton.1 hmm).symm⟩
      · exact h
  · rw [hseedk] at hdep
    cases hdep

/-- C8: every division in the per-role and per-word gradient averaging has a
strictly positive divisor: every key of the `wgrads` accumulator is the label
of some tree node, so `depcount` is at least 1; every node's own word count
is at least 1 (the node itself); and every word of the chain RNN's `word_set`
occurs in `all_words`, so its occurrence count is at least 1. -/
theorem C8_positive_divisors {n d : ℕ} (wm : Mat d d) (weights : String → Mat d d)
    (vectors : String → Option (Vec d)) (t : DepTree n) (emb : Fin n → Vec d)
    (error_grad : Vec d) (fuel : ℕ) (batch : List (List String)) :
    (∀ dep ∈ (DependencyNetwork.bwdFinal wm weights vectors t emb
        error_grad fuel).data.wkeys, 0 < DependencyNetwork.depcount t dep) ∧
    (∀ i : Fin n, 0 < DependencyNetwork.wordcount t (t.text i)) ∧
    (∀ w ∈ RecurrentNetwork.word_set batch,
      0 < (RecurrentNetwork.all_words batch).count w) := by
  refine ⟨?_, ?_, ?_⟩
  · intro dep hdep
    obtain ⟨i, hi⟩ := bwd_wkeys_label_exists wm weights vectors t emb error_grad fuel dep hdep
    exact List.length_pos_of_mem
      (List.mem_filter.2 ⟨List.mem_finRange i, decide_eq_true hi⟩)
  · intro i
    exact List.length_pos_of_mem
      (List.mem_filter.2 ⟨List.mem_finRange i, decide_eq_true rfl⟩)
  · intro w hw
    obtain ⟨hwmem, hwpad⟩ := List.mem_filter.1 hw
    rw [List.count_pos_iff]
    exact List.mem_filter.2 ⟨List.mem_dedup.1 hwmem, hwpad⟩

/-- C8, witness: positive divisors on the concrete two-node tree run (the
label "nsubj" is a key of the accumulated gradients) and a concrete batch. -/
theorem C8_witness :
    ("nsubj" ∈ (DependencyNetwork.bwdFinal 1 (fun _ => 1)
        (c1Vectors (fun _ => 1) (fun _ => 0)) c1Tree (fun _ => 0)
        (fun _ => 1) 2).data.wkeys) ∧
    ("a" ∈ RecurrentNetwork.word_set [["a"]]) ∧
    0 < DependencyNetwork.depcount c1Tree "nsubj" ∧
    0 < DependencyNetwork.wordcount c1Tree (c1Tree.text 0) ∧
    0 < (RecurrentNetwork.all_words [["a"]]).count "a" := by
  have h1 : "nsubj" ∈ (DependencyNetwork.bwdFinal 1 (fun _ => 1)
      (c1Vectors (fun _ => 1) (fun _ => 0)) c1Tree (fun _ => 0)
      (fun _ => 1) 2).data.wkeys := by decide
  have h2 : "a" ∈ RecurrentNetwork.word_set [["a"]] := by decide
  exact ⟨h1, h2,
    (C8_positive_divisors 1 (fun _ => 1) (c1Vectors (fun _ => 1) (fun _ => 0))
      c1Tree (fun _ => 0) (fun _ => 1) 2 [["a"]]).1 "nsubj" h1,
    (C8_positive_divisors 1 (fun _ => 1) (c1Vectors (fun _ => 1) (fun _ => 0))
      c1Tree (fun _ => 0) (fun _ => 1) 2 [["a"]]).2.1 0,
    (C8_positive_divisors 1 (fun _ => 1) (c1Vectors (fun _ => 1) (fun _ => 0))
      c1Tree (fun _ => 0) (fun _ => 1) 2 [["a"]]).2.2 "a" h2⟩


theorem l2normM_smul {d e : ℕ} (a : ℝ) (g : Mat d e) :
    l2normM (a • g) = |a| * l2normM g := by
  unfold l2normM
  have h : ∑ i, ∑ j, (a • g) i j ^ 2 = a ^ 2 * ∑ i, ∑ j, g i j ^ 2 := by
    rw [Finset.mul_sum]
    refine Finset.sum_congr rfl fun i _ => ?_
    rw [Finset.mul_sum]
    refine Finset.sum_congr rfl fun j _ => ?_
    simp [Matrix.smul_apply, mul_pow]
  rw [h, Real.sqrt_mul (sq_nonneg a), Real.sqrt_sq_eq_abs]

/-- C6: `save` followed by `load` restores a parameter store whose weights,
biases, structural matrix `wm`, embedding table, vocabulary and dimension are
all exactly equal to their values before saving (serialization itself being
the external persistence interface): the save dict carries exactly the fields
load reads, and load assigns each to the matching attribute. -/
theorem C6_save_load_roundtrip (s : DepNetState) : loadParams s (saveParams s) = s := rfl

theorem chain_clip_norm_five {d e : ℕ} (g : Mat d e) (c : ℝ) (hc : 0 < c)
    (h : c < l2normM g) :
    l2normM (if l2normM g > c then (5 / l2normM g) • g else g) = 5 := by
  rw [if_pos h, l2normM_smul]
  have hn : 0 < l2normM g := hc.trans h
  rw [abs_of_nonneg (by positivity)]
  field_simp

/-- C10 (amended): `RecurrentNetwork.clip_gradient` and `LSTM.clip_grad`
return the gradient unchanged when its L2 norm is at most the threshold `c`,
and otherwise rescale it to L2 norm exactly 5 regardless of `c` (the
hardcoded constant); `DependencyNetwork.clip_gradient` rescales to `c`
itself — and so does `TreeLSTM.clip_gradient` (lstm.py:283), so the
DependencyNetwork one is not the only clipper targeting `clipval`. -/
theorem C10_clip_functions {d e dv : ℕ} (g : Mat d e) (gv : Vec dv) (c : ℝ)
    (hc : 0 < c) :
    (l2normM g ≤ c →
      RecurrentNetwork.clip_gradient g c = g ∧ LSTM.clip_grad g c = g ∧
      TreeLSTM.clip_gradient g c = g) ∧
    (c < l2normM g →
      l2normM (RecurrentNetwork.clip_gradient g c) = 5 ∧
      l2normM (LSTM.clip_grad g c) = 5 ∧
      l2normM (TreeLSTM.clip_gradient g c) = c) ∧
    (l2norm gv ≤ c → DependencyNetwork.clip_gradient gv c = gv) ∧
    (c < l2norm gv → l2norm (DependencyNetwork.clip_gradient gv c) = c) := by
  refine ⟨?_, ?_, ?_, ?_⟩
  · intro h
    have hni : ¬l2normM g > c := not_lt.2 h
    exact ⟨if_neg hni, if_neg hni, if_neg hni⟩
  · intro h
    refine ⟨chain_clip_norm_five g c hc h, chain_clip_norm_five g c hc h, ?_⟩
    unfold TreeLSTM.clip_gradient
    rw [if_pos h, l2normM_smul]
    have hn : 0 < l2normM g := hc.trans h
    rw [abs_of_nonneg (by positivity)]
    field_simp
  · intro h
    unfold DependencyNetwork.clip_gradient
    exact if_neg (not_lt.2 h)
  · intro h
    exact clip_gradient_norm gv c hc.le h

/-- C10, counterexample: `TreeLSTM.clip_gradient` on the 1×1 gradient `[[3]]`
with threshold 2 rescales to L2 norm exactly 2 — the clipval, not the
constant 5, and not the unchanged gradient — refuting the claim that only
`DependencyNetwork.clip_gradient` rescales to clipval itself. -/
theorem C10_counterexample :
    l2normM (TreeLSTM.clip_gradient (Matrix.of fun _ _ => (3 : ℝ) : Mat 1 1) 2) = 2 ∧
    TreeLSTM.clip_gradient (Matrix.of fun _ _ => (3 : ℝ) : Mat 1 1) 2
      ≠ (Matrix.of fun _ _ => (3 : ℝ) : Mat 1 1) ∧
    (2 : ℝ) ≠ 5 := by
  have h9 : l2normM (Matrix.of fun _ _ => (3 : ℝ) : Mat 1 1) = 3 := by
    unfold l2normM
    rw [Fin.sum_univ_one, Fin.sum_univ_one,
      show ((Matrix.of fun _ _ => (3 : ℝ) : Mat 1 1)) 0 0 ^ 2 = 3 ^ 2 from rfl,
      Real.sqrt_sq (by norm_num)]
  have h32 : (2 : ℝ) < 3 := by norm_num
  refine ⟨?_, ?_, by norm_num⟩
  · unfold TreeLSTM.clip_gradient
    rw [h9, if_pos h32, l2normM_smul, h9]
    rw [abs_of_nonneg (by norm_num : (0 : ℝ) ≤ 2 / 3)]
    norm_num
  · unfold TreeLSTM.clip_gradient
    rw [h9, if_pos h32]
    intro heq
    have hentry := congrFun (congrFun heq 0) 0
    have h23 : (2 : ℝ) / 3 * 3 = 3 := by
      have hsm : (((2 : ℝ) / 3) • (Matrix.of fun _ _ => (3 : ℝ) : Mat 1 1)) 0 0
          = 2 / 3 * 3 := rfl
      rw [hsm] at hentry
      exact hentry
    norm_num at h23

/-- C10, witness: the clip-behavior statement applies at the concrete 1×1
gradient `[[3]]`, the concrete 1-vector `[3]`, and threshold 2. -/
theorem C10_witness :
    (0 : ℝ) < 2 ∧
    ((l2normM (Matrix.of fun _ _ => (3 : ℝ) : Mat 1 1) ≤ 2 →
      RecurrentNetwork.clip_gradient (Matrix.of fun _ _ => (3 : ℝ) : Mat 1 1) 2
          = (Matrix.of fun _ _ => (3 : ℝ) : Mat 1 1) ∧
        LSTM.clip_grad (Matrix.of fun _ _ => (3 : ℝ) : Mat 1 1) 2
          = (Matrix.of fun _ _ => (3 : ℝ) : Mat 1 1) ∧
        TreeLSTM.clip_gradient (Matrix.of fun _ _ => (3 : ℝ) : Mat 1 1) 2
          = (Matrix.of fun _ _ => (3 : ℝ) : Mat 1 1)) ∧
      ((2 : ℝ) < l2normM (Matrix.of fun _ _ => (3 : ℝ) : Mat 1 1) →
        l2normM (RecurrentNetwork.clip_gradient
          (Matrix.of fun _ _ => (3 : ℝ) : Mat 1 1) 2) = 5 ∧
        l2normM (LSTM.clip_grad (Matrix.of fun _ _ => (3 : ℝ) : Mat 1 1) 2) = 5 ∧
        l2normM (TreeLSTM.clip_gradient (Matrix.of fun _ _ => (3 : ℝ) : Mat 1 1) 2) = 2) ∧
      (l2norm (fun _ => (3 : ℝ) : Vec 1) ≤ 2 →
        DependencyNetwork.clip_gradient (fun _ => (3 : ℝ) : Vec 1) 2
          = (fun _ => (3 : ℝ) : Vec 1)) ∧
      ((2 : ℝ) < l2norm (fun _ => (3 : ℝ) : Vec 1) →
        l2norm (DependencyNetwork.clip_gradient (fun _ => (3 : ℝ) : Vec 1) 2) = 2)) :=
  ⟨by norm_num,
    C10_clip_functions (Matrix.of fun _ _ => (3 : ℝ) : Mat 1 1)
      (fun _ => (3 : ℝ) : Vec 1) 2 (by norm_num)⟩

/-- C1, counterexample: in the concrete scenario with `vector("cat")` the
all-ones vector and `vector("sat")` the zero vector, `forward_pass` followed
by `get_root_embedding` does NOT produce `tanh(vector("sat") + I·vector("cat"))`:
the code also applies `tanh` (and `wm`) at the leaf, so the root embedding is
`tanh(0 + tanh 1)` per coordinate, not `tanh(0 + 1)`. -/
theorem C1_counterexample :
    DependencyNetwork.get_root_embedding c1Tree
      (DependencyNetwork.forward_pass 1 (fun _ => 1) (fun _ => 0)
        (c1Vectors (fun _ => 1) (fun _ => 0)) c1Tree).data
      ≠ some (fun j => Real.tanh ((fun _ => (0 : ℝ)) j +
          (1 : Mat 4 4).mulVec (fun _ => 1) j)) := by
  rw [c1_root_embedding]
  intro h
  have h0 := congrFun (Option.some.inj h) 0
  simp only [Matrix.one_mulVec, zero_add] at h0
  exact real_tanh_ne_one 1 (real_tanh_injective h0)

/-- C1 (amended): in the §8 concrete scenario (dimension 4, single-edge tree
root "sat" with one `nsubj` child "cat", all weights and `wm` the identity,
all biases zero, fixed word vectors), `forward_pass` followed by
`get_root_embedding` produces exactly `tanh(vector("sat") + I·tanh(I·vector("cat")))`,
i.e. the claimed value with the nonlinearity also applied at the leaf node. -/
theorem C1_concrete_scenario (vcat vsat : Vec 4) :
    DependencyNetwork.get_root_embedding c1Tree
      (DependencyNetwork.forward_pass 1 (fun _ => 1) (fun _ => 0)
        (c1Vectors vcat vsat) c1Tree).data
      = some (fun j => Real.tanh (vsat j + Real.tanh (vcat j))) :=
  c1_root_embedding vcat vsat


end Pysem

